import Mathlib

/-!
# vue-csv-exporter: the CSV generator

A shallow embedding of `src/src/CSVGenerator.js` (class `CSVGenerator`) and of
the methods `prepareExportData` and `transformData` of `src/src/exportMixin.js`,
and the properties of them that the specification states.

Modelling conventions.

* A JavaScript string is the list of its UTF-16 code units (`Text`), which is
  what `includes`, `replace`, `join`, `split` and the regular expressions of
  the source (none has the `u` flag) operate on.
* A thrown exception is the `error` case of `Except JSError`.
* An array is the list of its index slots; a slot is an element or a hole
  (`none`), as in `[ , {a: 1}]`.
* An object is a plain object: the list of its own enumerable properties in
  the order `Object.keys` lists them; it inherits from `Object.prototype` only.
* A number carries a safe integer (at most 2^53 - 1 in absolute value, see
  `IsSafe`), whose text form is its decimal numeral. The text form of other
  numbers needs floating point; as a field value such a number is an
  `other` value, given by the text `String` yields for it.
* The `quote` option is a one-character string, as its documentation says
  ("Символ кавычек"); the regular expression `new RegExp(cfg.quote, "g")` is
  modelled for every one-character pattern.
-/

namespace CSVExporter

/-! ## Texts -/

/-- A JavaScript string, as the list of its UTF-16 code units. -/
abbrev Text := List Nat

/-- The UTF-16 code units of one Unicode character. -/
def charUnits (c : Char) : Text :=
  if c.toNat < 65536 then [c.toNat]
  else [55296 + (c.toNat - 65536) / 1024, 56320 + (c.toNat - 65536) % 1024]

/-- The JavaScript string written by a string literal. -/
def units (s : String) : Text :=
  (s.toList.map charUnits).flatten

/-- The test `s.startsWith(t)`. -/
def startsWith : Text → Text → Bool
  | _, [] => true
  | [], _ :: _ => false
  | a :: s, b :: t => a == b && startsWith s t

/-- The test `s.includes(t)`: the text `t` occurs in `s`. -/
def includes : Text → Text → Bool
  | [], t => startsWith [] t
  | a :: s, t => startsWith (a :: s) t || includes s t

/-- The call `parts.join(sep)` on an array of strings. -/
def joinWith (sep : Text) : List Text → Text
  | [] => []
  | [x] => x
  | x :: y :: rest => x ++ sep ++ joinWith sep (y :: rest)

/-- The call `s.split(sep)`; `skip` counts the code units of a separator just
found that are still to be passed over, `cur` holds the current piece
reversed. -/
def splitAux (sep : Text) : Nat → Text → Text → List Text
  | _, cur, [] => [cur.reverse]
  | skip + 1, cur, _ :: s => splitAux sep skip cur s
  | 0, cur, c :: s =>
    if startsWith (c :: s) sep then cur.reverse :: splitAux sep (sep.length - 1) [] s
    else splitAux sep 0 (c :: cur) s

/-- The call `s.split(sep)`: the pieces between the leftmost non-overlapping
occurrences of `sep`; with the empty separator, the code units one by one. -/
def split (s sep : Text) : List Text :=
  match sep with
  | [] => s.map fun c => [c]
  | _ :: _ => splitAux sep 0 [] s

/-! ## Values -/

/-- What can be thrown: `new Error(message)`, or a `SyntaxError` or
`TypeError` raised by the runtime (their messages are engine-defined). -/
inductive JSError where
  | error (message : Text)
  | syntaxError
  | typeError
  deriving DecidableEq, Repr

/-- Primitive values whose `typeof` is `"boolean"`, `"number"` or `"string"`. -/
inductive Prim where
  | boolean (b : Bool)
  | number (n : Int)
  | string (s : Text)
  deriving DecidableEq, Repr

/-- A field value: `null`, `undefined`, a primitive, or any other value (an
object, an array, a date, a number that is not a safe integer) given by the
text `String(value)` yields. -/
inductive Field where
  | null
  | undefined
  | prim (p : Prim)
  | other (text : Text)
  deriving DecidableEq, Repr

/-- A record: an object, as its own enumerable properties in the order
`Object.keys` lists them. -/
abbrev Record := List (Text × Field)

/-- An element of the data array: `null`, `undefined`, a primitive, or an
object. -/
inductive Item where
  | null
  | undefined
  | prim (p : Prim)
  | record (entries : Record)
  deriving DecidableEq, Repr

/-- The argument `data`: an array (`Array.isArray(data)`) as the list of its
index slots, `none` being a hole of a sparse array; or anything else. -/
inductive Data where
  | array (slots : List (Option Item))
  | other (value : Item)
  deriving DecidableEq, Repr

/-- The array of the given records, without holes. -/
def recordsArray (records : List Record) : Data :=
  .array (records.map fun r => some (Item.record r))

/-- The results of `typeof` on an `Item`. -/
inductive JSType where
  | undefined
  | object
  | boolean
  | number
  | string
  deriving DecidableEq, Repr

/-- The operator `typeof item`. -/
def typeOf : Item → JSType
  | .null => .object
  | .undefined => .undefined
  | .prim (.boolean _) => .boolean
  | .prim (.number _) => .number
  | .prim (.string _) => .string
  | .record _ => .object

/-- The decimal numeral of a natural number. -/
def natToText (n : Nat) : Text :=
  (Nat.toDigits 10 n).map Char.toNat

/-- The largest safe integer, 2^53 - 1. -/
def maxSafeInteger : Nat := 9007199254740991

/-- A number of the model stands for a number of the program when it is a
safe integer; `String` writes those, and not every larger one, as their
decimal numeral. -/
def IsSafe (n : Int) : Prop :=
  n.natAbs ≤ maxSafeInteger

/-- The conversion `String(n)` of a safe integer `n`: its decimal numeral. -/
def numberToText : Int → Text
  | .ofNat n => natToText n
  | .negSucc n => 45 :: natToText (n + 1)

/-- The numbers of a field value are safe integers. -/
def SafeField : Field → Prop
  | .prim (.number n) => IsSafe n
  | _ => True

/-- The conversion `String(p)` of a primitive. -/
def primToText : Prim → Text
  | .boolean true => units "true"
  | .boolean false => units "false"
  | .number n => numberToText n
  | .string s => s

/-- The conversion `String(field)`. -/
def jsString : Field → Text
  | .null => units "null"
  | .undefined => units "undefined"
  | .prim p => primToText p
  | .other text => text

/-- The own enumerable properties of `Object(item)`, which `Object.keys` and
`Object.values` list; both throw a `TypeError` on `null` and `undefined`. A
string has one property for each code unit, named by its index. -/
def ownEntries : Item → Except JSError Record
  | .null => .error .typeError
  | .undefined => .error .typeError
  | .prim (.string s) =>
    .ok (s.enum.map fun p => (natToText p.1, Field.prim (.string [p.2])))
  | .prim _ => .ok []
  | .record entries => .ok entries

/-- The call `Object.keys(item)`. -/
def objectKeys (item : Item) : Except JSError (List Text) :=
  match ownEntries item with
  | .error e => .error e
  | .ok entries => .ok (entries.map Prod.fst)

/-- The call `Object.values(item)`. -/
def objectValues (item : Item) : Except JSError (List Field) :=
  match ownEntries item with
  | .error e => .error e
  | .ok entries => .ok (entries.map Prod.snd)

/-! ## Configuration -/

/-- The type `CSVConfig` with every option present. -/
structure Config where
  delimiter : Text
  quote : Nat
  lineBreak : Text
  includeBOM : Bool
  quoteAll : Bool
  escapeDoubleQuotes : Bool
  deriving DecidableEq, Repr

/-- The argument `config` of `generate`: an object in which each option may
be missing. -/
structure PartialConfig where
  delimiter : Option Text
  quote : Option Nat
  lineBreak : Option Text
  includeBOM : Option Bool
  quoteAll : Option Bool
  escapeDoubleQuotes : Option Bool
  deriving DecidableEq, Repr

/-- The static property `CSVGenerator.defaultConfig`. -/
def defaultConfig : Config where
  delimiter := units ";"
  quote := 34
  lineBreak := units "\r\n"
  includeBOM := true
  quoteAll := false
  escapeDoubleQuotes := true

/-- The empty object `{}` as a configuration argument. -/
def emptyConfig : PartialConfig where
  delimiter := none
  quote := none
  lineBreak := none
  includeBOM := none
  quoteAll := none
  escapeDoubleQuotes := none

/-- The object spread `{ ...base, ...config }`. -/
def mergeConfig (base : Config) (config : PartialConfig) : Config where
  delimiter := config.delimiter.getD base.delimiter
  quote := config.quote.getD base.quote
  lineBreak := config.lineBreak.getD base.lineBreak
  includeBOM := config.includeBOM.getD base.includeBOM
  quoteAll := config.quoteAll.getD base.quoteAll
  escapeDoubleQuotes := config.escapeDoubleQuotes.getD base.escapeDoubleQuotes

/-- A full configuration as a configuration argument. -/
def Config.toPartial (cfg : Config) : PartialConfig where
  delimiter := some cfg.delimiter
  quote := some cfg.quote
  lineBreak := some cfg.lineBreak
  includeBOM := some cfg.includeBOM
  quoteAll := some cfg.quoteAll
  escapeDoubleQuotes := some cfg.escapeDoubleQuotes

/-! ## The regular expression built from the quote character -/

/-- The regular expression `new RegExp(q, "g")` for a one-character pattern
`q`, in the grammar browsers implement (no `u` flag). -/
inductive QuoteRegExp where
  | literal (c : Nat)
  | anyChar
  | inputStart
  | inputEnd
  | emptyAlternatives
  deriving DecidableEq, Repr

/-- The constructor `new RegExp(q, "g")` on a one-character pattern. The
characters `\ * + ? ( ) [` alone are not a pattern: a `SyntaxError` is
thrown. `.` matches any code unit but a line terminator, `^` and `$` match
the empty text at the start and the end of the input, `|` matches the empty
text everywhere, and any other character matches itself. -/
def newRegExp (q : Nat) : Except JSError QuoteRegExp :=
  if q = 92 ∨ q = 42 ∨ q = 43 ∨ q = 63 ∨ q = 40 ∨ q = 41 ∨ q = 91 then .error .syntaxError
  else if q = 46 then .ok .anyChar
  else if q = 94 then .ok .inputStart
  else if q = 36 then .ok .inputEnd
  else if q = 124 then .ok .emptyAlternatives
  else .ok (.literal q)

/-- The line terminators of the language, which `.` does not match. -/
def isLineTerminator (c : Nat) : Bool :=
  c = 10 || c = 13 || c = 8232 || c = 8233

/-- The text a replacement string `q + q` stands for: `$$` is an escape for
one `$`; no other doubled character is special. -/
def expandReplacement (q : Nat) : Text :=
  if q = 36 then [36] else [q, q]

/-- The call `s.replace(re, replacement)` for a global regular expression of
the above kind and an expanded replacement text. -/
def replaceAll (re : QuoteRegExp) (replacement : Text) (s : Text) : Text :=
  match re with
  | .literal c => (s.map fun x => if x = c then replacement else [x]).flatten
  | .anyChar => (s.map fun x => if isLineTerminator x then [x] else replacement).flatten
  | .inputStart => replacement ++ s
  | .inputEnd => s ++ replacement
  | .emptyAlternatives => replacement ++ (s.map fun x => x :: replacement).flatten

/-! ## The generator -/

/-- The type `ValidationResult`; `error` is absent in a valid result. -/
structure ValidationResult where
  isValid : Bool
  error : Option Text
  deriving DecidableEq, Repr

/-- The call `xs.some(test)`: the test is not called on a hole. -/
def someSlot {α : Type} (test : α → Bool) (slots : List (Option α)) : Bool :=
  slots.any fun slot =>
    match slot with
    | none => false
    | some a => test a

/-- The method `CSVGenerator.validateData`. -/
def validateData : Data → ValidationResult
  | .other _ => { isValid := false, error := some (units "Data must be an array") }
  | .array slots =>
    if slots.length = 0 then
      { isValid := false, error := some (units "No data to export") }
    else if someSlot (fun item => item = Item.null || typeOf item != JSType.object) slots then
      { isValid := false, error := some (units "Data contains invalid items") }
    else
      { isValid := true, error := none }

/-- The text `stringField` that `formatField` starts from. -/
def fieldText (field : Field) : Text :=
  if field = Field.null ∨ field = Field.undefined then [] else jsString field

/-- The method `CSVGenerator.formatField`. -/
def formatField (field : Field) (cfg : Config) : Except JSError Text :=
  let stringField := fieldText field
  let needsQuoting :=
    cfg.quoteAll ||
    includes stringField cfg.delimiter ||
    includes stringField [cfg.quote] ||
    includes stringField [10] ||
    includes stringField [13]
  if needsQuoting then
    if cfg.escapeDoubleQuotes then
      match newRegExp cfg.quote with
      | .error e => .error e
      | .ok re =>
        .ok ([cfg.quote] ++ replaceAll re (expandReplacement cfg.quote) stringField ++ [cfg.quote])
    else
      .ok ([cfg.quote] ++ stringField ++ [cfg.quote])
  else
    .ok stringField

/-- The call `xs.map(f)` for a callback that may throw: the first exception
ends the traversal. -/
def mapThrow {α β : Type} (f : α → Except JSError β) : List α → Except JSError (List β)
  | [] => .ok []
  | a :: rest =>
    match f a with
    | .error e => .error e
    | .ok b =>
      match mapThrow f rest with
      | .error e => .error e
      | .ok bs => .ok (b :: bs)

/-- The method `CSVGenerator.formatRow`. -/
def formatRow (fields : List Field) (cfg : Config) : Except JSError Text :=
  match mapThrow (fun field => formatField field cfg) fields with
  | .error e => .error e
  | .ok texts => .ok (joinWith cfg.delimiter texts)

/-- The call `xs.map(f)` on an array that may have holes, for a callback that
may throw: the callback is not called on a hole, which stays a hole of the
result; the first exception ends the traversal. -/
def mapSlots {α β : Type} (f : α → Except JSError β) :
    List (Option α) → Except JSError (List (Option β))
  | [] => .ok []
  | none :: rest =>
    match mapSlots f rest with
    | .error e => .error e
    | .ok bs => .ok (none :: bs)
  | some a :: rest =>
    match f a with
    | .error e => .error e
    | .ok b =>
      match mapSlots f rest with
      | .error e => .error e
      | .ok bs => .ok (some b :: bs)

/-- The element `data[0]`: `undefined` when the array is empty or starts with
a hole. -/
def firstItem : List (Option Item) → Item
  | [] => .undefined
  | none :: _ => .undefined
  | some item :: _ => item

/-- The array `rows` built in `generate`: the header row, from the keys of
`data[0]`, then the rows `data.map` gives, one for each element, from its own
values. A hole of `data` is a hole of the mapped array; the spread `...`
reads it as `undefined`, which `join` writes as the empty text: the row of a
hole is given here as the empty text. -/
def generateRows (slots : List (Option Item)) (cfg : Config) : Except JSError (List Text) :=
  match objectKeys (firstItem slots) with
  | .error e => .error e
  | .ok headers =>
    match formatRow (headers.map fun key => Field.prim (.string key)) cfg with
    | .error e => .error e
    | .ok headerRow =>
      match mapSlots
          (fun item =>
            match objectValues item with
            | .error e => .error e
            | .ok values => formatRow values cfg)
          slots with
      | .error e => .error e
      | .ok dataRows => .ok (headerRow :: dataRows.map fun row => row.getD [])

/-- The method `CSVGenerator.generate`. -/
def generate (data : Data) (config : PartialConfig) : Except JSError Text :=
  let validation := validateData data
  if !validation.isValid then
    .error (.error (units "CSV generation failed: " ++ validation.error.getD (units "undefined")))
  else
    let cfg := mergeConfig defaultConfig config
    match data with
    | .other _ => .error .typeError
    | .array slots =>
      match generateRows slots cfg with
      | .error e => .error e
      | .ok rows =>
        let csv := joinWith cfg.lineBreak rows
        if cfg.includeBOM then .ok ([65279] ++ csv) else .ok csv

/-! ## The sanitizer -/

/-- The character class `[\x00-\x08\x0B\x0C\x0E-\x1F\x7F-\x9F]`. -/
def isControl (c : Nat) : Bool :=
  c ≤ 8 || c = 11 || c = 12 || (14 ≤ c && c ≤ 31) || (127 ≤ c && c ≤ 159)

/-- The character class `\s`, which is also what `trim` removes: the white
space and line terminator characters of the language. -/
def isWhiteSpace (c : Nat) : Bool :=
  c = 9 || c = 10 || c = 11 || c = 12 || c = 13 || c = 32 || c = 160 || c = 5760 ||
  (8192 ≤ c && c ≤ 8202) || c = 8232 || c = 8233 || c = 8239 || c = 8287 ||
  c = 12288 || c = 65279

/-- The call `s.replace(/\s+/g, " ")`; `inRun` tells that the code unit before
was white space, whose run has already been replaced. -/
def collapseAux : Bool → Text → Text
  | _, [] => []
  | inRun, c :: s =>
    if isWhiteSpace c then
      if inRun then collapseAux true s else 32 :: collapseAux true s
    else c :: collapseAux false s

/-- The call `s.trim()`. -/
def trim (s : Text) : Text :=
  ((s.dropWhile isWhiteSpace).reverse.dropWhile isWhiteSpace).reverse

/-- The method `CSVGenerator.sanitizeField`. -/
def sanitizeField (field : Field) : Text :=
  if field = Field.null ∨ field = Field.undefined then []
  else
    trim (collapseAux false ((jsString field).map fun c => if isControl c then 32 else c))

/-! ## Reading a quoted field back -/

/-- The call `s.slice(1, -1)`: the text without its first and its last code
unit. -/
def stripEnds (s : Text) : Text :=
  s.tail.dropLast

/-- Undoubling, as the specification words it: every pair of consecutive
quote characters, taken from the left, becomes one quote character. -/
def undouble (q : Nat) : Text → Text
  | a :: b :: rest =>
    if a = q ∧ b = q then q :: undouble q rest else a :: undouble q (b :: rest)
  | s => s

/-! ## Definitions of the specification, and example data -/

/-- The header row and the data rows of a list of records, written with the
keys and the values of the records themselves. -/
def recordRows (first : Record) (rest : List Record) (cfg : Config) :
    Except JSError (List Text) :=
  match formatRow (first.map fun kv => Field.prim (.string kv.1)) cfg with
  | .error e => .error e
  | .ok header =>
    match mapThrow (fun r : Record => formatRow (r.map Prod.snd) cfg) (first :: rest) with
    | .error e => .error e
    | .ok rows => .ok (header :: rows)

/-- The record `{name: "A", age: 30}`. -/
def personA : Record :=
  [(units "name", .prim (.string (units "A"))), (units "age", .prim (.number 30))]

/-- The record `{name: "B", age: 25}`. -/
def personB : Record :=
  [(units "name", .prim (.string (units "B"))), (units "age", .prim (.number 25))]

/-- The collection `[{name: "A", age: 30}, {name: "B", age: 25}]`. -/
def twoPeople : Data :=
  recordsArray [personA, personB]

/-- The test the specification makes of an element: it is `null`, absent, or
not a structured record. -/
def isNotRecord : Item → Bool
  | .record _ => false
  | _ => true

/-- Doubling, as the specification words it: every occurrence of the quote
character is replaced by two consecutive quote characters and nothing else
changes. -/
def doubleQuotes (q : Nat) (s : Text) : Text :=
  (s.map fun x => if x = q then [q, q] else [x]).flatten

/-- The collection `[{f: "f(x)"}]`. -/
def parenthesisData : Data :=
  recordsArray [[(units "f", .prim (.string (units "f(x)")))]]

/-- The configuration argument `{quote: "("}`. -/
def parenthesisQuote : PartialConfig :=
  { emptyConfig with quote := some 40 }

/-- The configuration with `.` as the quote character, the other options at
their defaults. -/
def dotQuoteConfig : Config :=
  { defaultConfig with quote := 46 }

/-- The text form of a field value, as the specification lists it: the empty
text for `null` and `undefined`, the literal text form for a boolean or a
number, the text itself for a text. -/
def plainText : Field → Text
  | .null => []
  | .undefined => []
  | .prim (.boolean b) => if b then units "true" else units "false"
  | .prim (.number n) => numberToText n
  | .prim (.string s) => s
  | .other text => text

/-- The collection `[{"\uFEFFname": "A"}]`, whose only key begins with
U+FEFF. -/
def markedKeyData : Data :=
  recordsArray [[(65279 :: units "name", .prim (.string (units "A")))]]

/-- The configuration argument `{includeBOM: false}`. -/
def withoutBOM : PartialConfig :=
  { emptyConfig with includeBOM := some false }

/-- The rows as they stand in the output: the first one comes after the
U+FEFF, when there is one. -/
def outputRows (bom : Bool) : List Text → List Text
  | [] => []
  | header :: rest => ((if bom then [65279] else []) ++ header) :: rest

/-- In the text of the rows joined by the separator, no occurrence of the
separator begins inside a row. -/
def noInnerMatch (sep : Text) : List Text → Bool
  | [] => true
  | row :: rest =>
    ((List.range row.length).all fun j =>
      !startsWith ((joinWith sep (row :: rest)).drop j) sep) &&
    noInnerMatch sep rest

/-- The sparse array `[ , {a: 1}]`: a hole, then a record. -/
def leadingHoleData : Data :=
  .array [none, some (.record [(units "a", .prim (.number 1))])]

/-- The array `[undefined, {a: 1}]`. -/
def leadingUndefinedData : Data :=
  .array [some .undefined, some (.record [(units "a", .prim (.number 1))])]

/-- The collection `[{a: "x\r\ny"}]`, whose one value holds a line break. -/
def lineBreakData : Data :=
  recordsArray [[(units "a", .prim (.string (units "x\r\ny")))]]

/-- Rows read by position, as the specification describes them: the header
row from a list of keys, and one row from each list of values, in the order
of that list. -/
def positionalRows (keys : List Text) (values : List (List Field)) (cfg : Config) :
    Except JSError (List Text) :=
  match formatRow (keys.map fun key => Field.prim (.string key)) cfg with
  | .error e => .error e
  | .ok header =>
    match mapThrow (fun fields => formatRow fields cfg) values with
    | .error e => .error e
    | .ok rows => .ok (header :: rows)

/-- The collection `[{a: 1, b: 2}, {b: 3, a: 4}]`. -/
def permutedData : Data :=
  recordsArray [
    [(units "a", .prim (.number 1)), (units "b", .prim (.number 2))],
    [(units "b", .prim (.number 3)), (units "a", .prim (.number 4))]]

/-- The method `generate` as a step on the class: the static property
`defaultConfig` is read in the spread `{ ...this.defaultConfig, ...config }`,
which builds a new object, and is never assigned to. The result comes with
the value of the property after the call. -/
def generateWithDefaults (defaults : Config) (data : Data) (config : PartialConfig) :
    Except JSError Text × Config :=
  let validation := validateData data
  if !validation.isValid then
    (.error (.error (units "CSV generation failed: " ++ validation.error.getD (units "undefined"))),
      defaults)
  else
    let cfg := mergeConfig defaults config
    match data with
    | .other _ => (.error .typeError, defaults)
    | .array slots =>
      match generateRows slots cfg with
      | .error e => (.error e, defaults)
      | .ok rows =>
        let csv := joinWith cfg.lineBreak rows
        if cfg.includeBOM then (.ok ([65279] ++ csv), defaults) else (.ok csv, defaults)

/-- The configuration with `quoteAll` on and `(` as the quote character. -/
def quoteAllParenthesis : Config :=
  { defaultConfig with quoteAll := true, quote := 40 }

/-- The configuration with `quoteAll` on and `^` as the quote character. -/
def quoteAllCaret : Config :=
  { defaultConfig with quoteAll := true, quote := 94 }

/-- The configuration with `escapeDoubleQuotes` off, the other options at
their defaults. -/
def unescapedConfig : Config :=
  { defaultConfig with escapeDoubleQuotes := false }

/-- The formatted text of a text field under the default configuration, as
the specification gives it: quoted, with the quote characters doubled, when
the text holds `;`, `"`, a line feed or a carriage return; the text itself
otherwise. -/
def defaultFieldText (s : Text) : Text :=
  if 59 ∈ s ∨ 34 ∈ s ∨ 10 ∈ s ∨ 13 ∈ s then [34] ++ doubleQuotes 34 s ++ [34] else s

/-- What may follow a field in a row: nothing, or a delimiter and more. -/
def IsRowTail (t : Text) : Prop :=
  t = [] ∨ ∃ rest : Text, t = 59 :: rest

/-! ## The export mixin (`src/src/exportMixin.js`) -/

/-- The object spread `{ ...item }`: the own enumerable properties of the
item, copied into a new object in their order; `null`, `undefined`, booleans
and numbers have none. -/
def spread (item : Item) : Record :=
  match ownEntries item with
  | .error _ => []
  | .ok entries => entries

/-- The value of `data?.map` for a `data` that is not an array: `undefined`
for `null` and `undefined` (the chain stops) and for a primitive (no
primitive has a `map`); for an object, its own property `map`, or `undefined`
when it has none (objects are plain objects, which inherit no `map`). -/
def mapProperty : Item → Field
  | .record entries => (entries.lookup (units "map")).getD .undefined
  | _ => .undefined

/-- An object made by the call, with its identity: the address it is
allocated at. -/
structure NewObject where
  address : Nat
  entries : Record
  deriving DecidableEq, Repr

/-- The call `data.map((item) => ({ ...item }))` on the slots of an array. A
hole stays a hole. For an element, the object literal allocates a new object,
at the next free address `next`, and the spread copies the properties of the
element into it. -/
def copySlots (next : Nat) : List (Option Item) → List (Option NewObject)
  | [] => []
  | none :: rest => none :: copySlots next rest
  | some item :: rest =>
    some { address := next, entries := spread item } :: copySlots (next + 1) rest

/-- The method `prepareExportData` of the mixin; `next` is the first free
address when the call starts: every object that exists then, the elements of
`data` among them, has a smaller address. On an array, `map` copies every
element, and an array is truthy. Otherwise the optional call `?.(...)` gives
`undefined` when `data?.map` is `null` or `undefined`, and `|| []` makes it
the empty array; any other value of `data?.map` is not a function (no field
value of the model is), and calling it throws a `TypeError`. -/
def prepareExportData (next : Nat) : Data → Except JSError (List (Option NewObject))
  | .array slots => .ok (copySlots next slots)
  | .other value =>
    match mapProperty value with
    | .null => .ok []
    | .undefined => .ok []
    | _ => .error .typeError

/-- The array `exportData` as `validateData` and `transformData` read it: the
objects by their properties. -/
def preparedData (prepared : List (Option NewObject)) : Data :=
  .array (prepared.map fun slot => slot.map fun object => Item.record object.entries)

/-- The object `{map: 1}`, passed as `data`. -/
def mapObject : Data :=
  .other (.record [(units "map", .prim (.number 1))])

/-- The array `[null, 5, {name: "A", age: 30}]`, passed as `data`. -/
def mixedArray : Data :=
  .array [some .null, some (.prim (.number 5)), some (.record personA)]

/-- The number a text of decimal digits writes. -/
def digitsValue (key : Text) : Nat :=
  key.foldl (fun n c => 10 * n + (c - 48)) 0

/-- The array index a property key is, if it is one: the key is the decimal
numeral of a number below 2^32 - 1. -/
def arrayIndex (key : Text) : Option Nat :=
  if natToText (digitsValue key) = key ∧ digitsValue key < 4294967295 then
    some (digitsValue key)
  else none

/-- The place of a new array-index property among the properties of an
object: after the array indices below it. -/
def insertIndex (n : Nat) (entry : Text × Field) : Record → Record
  | [] => [entry]
  | kv :: rest =>
    match arrayIndex kv.1 with
    | some m => if m < n then kv :: insertIndex n entry rest else entry :: kv :: rest
    | none => entry :: kv :: rest

/-- The assignment `obj[key] = value` of a string to a property of a plain
object. The key `__proto__` reaches the inherited setter, which ignores a
value that is not an object: nothing is stored. A property the object has
keeps its place; a new one is listed by `Object.keys` among the array indices
in increasing order if it is one, and last otherwise. -/
def setProperty (obj : Record) (key : Text) (value : Text) : Record :=
  if key = units "__proto__" then obj
  else if obj.any fun kv => kv.1 = key then
    obj.map fun kv => if kv.1 = key then (key, Field.prim (.string value)) else kv
  else
    match arrayIndex key with
    | some n => insertIndex n (key, Field.prim (.string value)) obj
    | none => obj ++ [(key, Field.prim (.string value))]

/-- The property read `item[key]` for a key of the item's own. -/
def getProperty (item : Item) (key : Text) : Field :=
  match ownEntries item with
  | .error _ => .undefined
  | .ok entries => (entries.lookup key).getD .undefined

/-- The callback of `transformData`: a new object `transformed`, to which
`forEach` assigns the sanitized value of every key of the item in turn. -/
def transformItem (item : Item) : Except JSError Record :=
  match objectKeys item with
  | .error e => .error e
  | .ok keys =>
    .ok (keys.foldl
      (fun transformed key => setProperty transformed key (sanitizeField (getProperty item key)))
      [])

/-- The method `transformData` of the mixin, on the slots of the array
`data`. -/
def transformData (data : List (Option Item)) : Except JSError (List (Option Record)) :=
  mapSlots transformItem data

/-- The record `JSON.parse('{"__proto__": "x", "a": " y "}')`, which has an
own property named `__proto__`. -/
def protoRecord : Record :=
  [(units "__proto__", .prim (.string (units "x"))), (units "a", .prim (.string (units " y ")))]

/-- The key `a` is listed before the key `b` by `Object.keys`, as far as the
kinds of the keys decide: array indices first, in increasing order. -/
def KeyOrder (a b : Text) : Prop :=
  match arrayIndex a, arrayIndex b with
  | some m, some n => m < n
  | none, some _ => False
  | _, _ => True

/-- The entries of an object as `Object.keys` lists them: the keys are
distinct and the array indices come first, in increasing order. -/
def WellFormed (r : Record) : Prop :=
  (r.map Prod.fst).Nodup ∧ (r.map Prod.fst).Pairwise KeyOrder

/-- The sanitized copy of a record: the same keys in the same order, every
value replaced by its sanitized text. -/
def sanitizedRecord (r : Record) : Record :=
  r.map fun kv => (kv.1, Field.prim (.string (sanitizeField kv.2)))

/-! ## Properties -/

/-- An item passes the element test of `validateData` exactly when it is an
object. -/
theorem item_test_eq_false_iff (item : Item) :
    (item = Item.null || typeOf item != JSType.object) = false ↔ ∃ r, item = Item.record r := by
  cases item with
  | null => simp
  | undefined => simp [typeOf]
  | prim p => cases p <;> simp [typeOf]
  | record r => simp [typeOf]

theorem someSlot_records {α : Type} (test : Item → Bool) (g : α → Record) (l : List α) :
    someSlot test (l.map fun a => some (Item.record (g a))) =
      l.any fun a => test (Item.record (g a)) := by
  induction l with
  | nil => rfl
  | cons a rest ih =>
    simp only [someSlot, List.map_cons, List.any_cons] at ih ⊢
    rw [ih]

theorem validateData_recordsArray (records : List Record) (hne : records ≠ []) :
    validateData (recordsArray records) = { isValid := true, error := none } := by
  unfold recordsArray validateData
  have h1 : ¬ (records.map fun r => some (Item.record r)).length = 0 := by
    simpa using hne
  have h2 : someSlot (fun item => item = Item.null || typeOf item != JSType.object)
      (records.map fun r => some (Item.record r)) = false := by
    rw [someSlot_records _ (fun r => r) records, List.any_eq_false]
    intro r _
    simp [typeOf]
  simp only [h1, h2, if_false]
  simp

/-- What `validateData` accepts: a non-empty array every element of which is
an object; holes are not looked at. -/
theorem validateData_isValid_iff (data : Data) :
    (validateData data).isValid = true ↔
      ∃ slots : List (Option Item), data = .array slots ∧ slots ≠ [] ∧
        ∀ item, some item ∈ slots → ∃ r, item = Item.record r := by
  cases data with
  | other v => simp [validateData]
  | array slots =>
    by_cases hlen : slots.length = 0
    · have hnil : slots = [] := List.length_eq_zero.1 hlen
      subst hnil
      simp [validateData]
    · have hne : slots ≠ [] := fun h => hlen (by rw [h]; rfl)
      by_cases hany : someSlot (fun item => item = Item.null || typeOf item != JSType.object)
          slots = true
      · simp only [validateData, hlen, hany, if_true, if_false, Bool.false_eq_true, false_iff]
        rintro ⟨slots', hs, -, hall⟩
        cases hs
        obtain ⟨slot, hslot, htest⟩ := List.any_eq_true.1 hany
        cases slot with
        | none => simp at htest
        | some item =>
          obtain ⟨r, rfl⟩ := hall item hslot
          simp [typeOf] at htest
      · have hv : validateData (.array slots) = { isValid := true, error := none } := by
          simp only [validateData, hlen, hany, if_false, Bool.false_eq_true]
        rw [hv]
        refine ⟨fun _ => ⟨slots, rfl, hne, ?_⟩, fun _ => rfl⟩
        intro item hitem
        apply (item_test_eq_false_iff item).1
        have hfalse := List.any_eq_false.1 (Bool.eq_false_iff.2 hany) (some item) hitem
        simpa using hfalse

theorem mapThrow_map {α β γ : Type} (f : β → Except JSError γ) (g : α → β) (l : List α) :
    mapThrow f (l.map g) = mapThrow (fun a => f (g a)) l := by
  induction l with
  | nil => rfl
  | cons a rest ih => simp only [List.map_cons, mapThrow, ih]

/-- On an array without holes `mapSlots` is `mapThrow`. -/
theorem mapSlots_map_some {α β γ : Type} (f : β → Except JSError γ) (g : α → β) (l : List α) :
    mapSlots f (l.map fun a => some (g a)) =
      match mapThrow (fun a => f (g a)) l with
      | .error e => .error e
      | .ok bs => .ok (bs.map some) := by
  induction l with
  | nil => rfl
  | cons a rest ih =>
    simp only [List.map_cons, mapSlots, mapThrow, ih]
    cases f (g a) with
    | error e => rfl
    | ok b =>
      simp only
      cases mapThrow (fun a => f (g a)) rest with
      | error e => rfl
      | ok bs => rfl

theorem generateRows_records (first : Record) (rest : List Record) (cfg : Config) :
    generateRows ((first :: rest).map fun r => some (Item.record r)) cfg =
      recordRows first rest cfg := by
  have hkeys : (first.map Prod.fst).map (fun key => Field.prim (.string key)) =
      first.map fun kv => Field.prim (.string kv.1) := by
    rw [List.map_map]
    rfl
  have hrows : ∀ rows : List Text, (rows.map some).map (fun row => row.getD []) = rows := by
    intro rows
    rw [List.map_map]
    exact List.map_id rows
  unfold generateRows recordRows
  rw [mapSlots_map_some]
  simp only [List.map_cons, firstItem, objectKeys, ownEntries, objectValues, hkeys]
  cases formatRow (first.map fun kv => Field.prim (.string kv.1)) cfg with
  | error e => rfl
  | ok header =>
    simp only
    cases mapThrow (fun r : Record => formatRow (r.map Prod.snd) cfg) (first :: rest) with
    | error e => rfl
    | ok rows => simp only [hrows]

theorem generate_records (first : Record) (rest : List Record) (config : PartialConfig) :
    generate (recordsArray (first :: rest)) config =
      match recordRows first rest (mergeConfig defaultConfig config) with
      | .error e => .error e
      | .ok rows =>
        .ok ((if (mergeConfig defaultConfig config).includeBOM then [65279] else []) ++
          joinWith (mergeConfig defaultConfig config).lineBreak rows) := by
  unfold generate
  rw [validateData_recordsArray (first :: rest) (by simp)]
  simp only [Bool.not_true, Bool.false_eq_true, if_false, recordsArray, generateRows_records]
  cases recordRows first rest (mergeConfig defaultConfig config) with
  | error e => rfl
  | ok rows =>
    cases hb : (mergeConfig defaultConfig config).includeBOM <;> simp [hb]

/-- On an array of records without holes `generate` does what the
specification says of an accepted collection: U+FEFF unless `includeBOM` is
supplied as false, then the row of the keys of the first record and the row of
the values of each record, in order, joined by the line terminator, each
option being the supplied value or else its default. -/
theorem generate_recordsArray (first : Record) (rest : List Record) (config : PartialConfig) :
    generate (recordsArray (first :: rest)) config =
      match formatRow (first.map fun kv => Field.prim (.string kv.1))
          { delimiter := config.delimiter.getD (units ";"),
            quote := config.quote.getD 34,
            lineBreak := config.lineBreak.getD (units "\r\n"),
            includeBOM := config.includeBOM.getD true,
            quoteAll := config.quoteAll.getD false,
            escapeDoubleQuotes := config.escapeDoubleQuotes.getD true } with
      | .error e => .error e
      | .ok header =>
        match mapThrow
            (fun r : Record => formatRow (r.map Prod.snd)
              { delimiter := config.delimiter.getD (units ";"),
                quote := config.quote.getD 34,
                lineBreak := config.lineBreak.getD (units "\r\n"),
                includeBOM := config.includeBOM.getD true,
                quoteAll := config.quoteAll.getD false,
                escapeDoubleQuotes := config.escapeDoubleQuotes.getD true })
            (first :: rest) with
        | .error e => .error e
        | .ok rows =>
          .ok ((if config.includeBOM.getD true then [65279] else []) ++
            joinWith (config.lineBreak.getD (units "\r\n")) (header :: rows)) := by
  rw [generate_records]
  unfold recordRows
  have hcfg : mergeConfig defaultConfig config =
      { delimiter := config.delimiter.getD (units ";"),
        quote := config.quote.getD 34,
        lineBreak := config.lineBreak.getD (units "\r\n"),
        includeBOM := config.includeBOM.getD true,
        quoteAll := config.quoteAll.getD false,
        escapeDoubleQuotes := config.escapeDoubleQuotes.getD true } := rfl
  rw [hcfg]
  cases formatRow (first.map fun kv => Field.prim (.string kv.1))
      { delimiter := config.delimiter.getD (units ";"),
        quote := config.quote.getD 34,
        lineBreak := config.lineBreak.getD (units "\r\n"),
        includeBOM := config.includeBOM.getD true,
        quoteAll := config.quoteAll.getD false,
        escapeDoubleQuotes := config.escapeDoubleQuotes.getD true } with
  | error e => rfl
  | ok header =>
    simp only
    cases mapThrow
        (fun r : Record => formatRow (r.map Prod.snd)
          { delimiter := config.delimiter.getD (units ";"),
            quote := config.quote.getD 34,
            lineBreak := config.lineBreak.getD (units "\r\n"),
            includeBOM := config.includeBOM.getD true,
            quoteAll := config.quoteAll.getD false,
            escapeDoubleQuotes := config.escapeDoubleQuotes.getD true })
        (first :: rest) with
    | error e => rfl
    | ok rows => rfl

/-- C1, at a failing input: the sparse array `[ , {a: 1}]` is an array that
`validateData` accepts, and `generate` throws a `TypeError` on it, raised by
`Object.keys(data[0])`, instead of returning the joined rows. -/
theorem generate_throws_on_leading_hole :
    (validateData leadingHoleData).isValid = true ∧
    generate leadingHoleData emptyConfig = .error .typeError :=
  ⟨rfl, rfl⟩

/-- The cases of `validateData`, in order, and the four examples of the
specification. An element is looked at only when it is present. -/
theorem validateData_cases :
    (∀ data : Data, validateData data =
      match data with
      | .other _ => { isValid := false, error := some (units "Data must be an array") }
      | .array slots =>
        if slots = [] then { isValid := false, error := some (units "No data to export") }
        else if ∃ slot ∈ slots, slot.map isNotRecord = some true then
          { isValid := false, error := some (units "Data contains invalid items") }
        else { isValid := true, error := none }) ∧
    validateData (.array []) =
      { isValid := false, error := some (units "No data to export") } ∧
    validateData (.other (.prim (.string (units "not a list")))) =
      { isValid := false, error := some (units "Data must be an array") } ∧
    validateData (.array [some (.record [(units "a", .prim (.number 1))]), some .null]) =
      { isValid := false, error := some (units "Data contains invalid items") } ∧
    validateData (.array [some (.record [(units "a", .prim (.number 1))])]) =
      { isValid := true, error := none } := by
  refine ⟨?_, rfl, rfl, rfl, rfl⟩
  intro data
  cases data with
  | other v => rfl
  | array slots =>
    have htest : ∀ item : Item,
        (item = Item.null || typeOf item != JSType.object) = isNotRecord item := by
      intro item
      cases item with
      | null => simp [isNotRecord]
      | undefined => simp [typeOf, isNotRecord]
      | prim p => cases p <;> simp [typeOf, isNotRecord]
      | record r => simp [typeOf, isNotRecord]
    have hsome : someSlot (fun item => item = Item.null || typeOf item != JSType.object) slots
        = true ↔ ∃ slot ∈ slots, slot.map isNotRecord = some true := by
      simp only [someSlot, List.any_eq_true]
      constructor
      · rintro ⟨slot, hslot, h⟩
        cases slot with
        | none => simp at h
        | some item =>
          refine ⟨some item, hslot, ?_⟩
          simp only [Option.map_some', Option.some.injEq]
          rw [← htest]
          exact h
      · rintro ⟨slot, hslot, h⟩
        cases slot with
        | none => simp at h
        | some item =>
          refine ⟨some item, hslot, ?_⟩
          simp only [Option.map_some', Option.some.injEq] at h
          simp only
          rw [htest]
          exact h
    by_cases hnil : slots = []
    · subst hnil
      rfl
    · have hlen : ¬ slots.length = 0 := fun h => hnil (List.length_eq_zero.1 h)
      by_cases hex : ∃ slot ∈ slots, slot.map isNotRecord = some true
      · simp only [validateData, hlen, hsome.2 hex, hnil, hex, if_true, if_false]
      · have hfalse : someSlot (fun item => item = Item.null || typeOf item != JSType.object)
            slots = false := Bool.eq_false_iff.2 fun h => hex (hsome.1 h)
        simp only [validateData, hlen, hfalse, hnil, hex, if_false, Bool.false_eq_true]

/-- C2, at a failing input: `validateData` accepts the sparse array
`[ , {a: 1}]`, whose first element is absent, while it rejects
`[undefined, {a: 1}]` with "Data contains invalid items". -/
theorem validateData_accepts_hole :
    validateData leadingHoleData = { isValid := true, error := none } ∧
    validateData leadingUndefinedData =
      { isValid := false, error := some (units "Data contains invalid items") } :=
  ⟨rfl, rfl⟩

/-- C3. When `validateData` reports the input invalid with reason `r`,
`generate` throws, whatever the configuration, an error whose message is
"CSV generation failed: " followed by `r`; no text is produced. -/
theorem generate_invalid (data : Data) (config : PartialConfig) (r : Text)
    (hinvalid : (validateData data).isValid = false)
    (hreason : (validateData data).error = some r) :
    generate data config = .error (.error (units "CSV generation failed: " ++ r)) := by
  unfold generate
  simp [hinvalid, hreason]

/-- C3, witness: the empty array. -/
theorem generate_invalid_witness :
    (validateData (.array [])).isValid = false ∧
    (validateData (.array [])).error = some (units "No data to export") ∧
    generate (.array []) emptyConfig =
      .error (.error (units "CSV generation failed: " ++ units "No data to export")) :=
  ⟨rfl, rfl, generate_invalid (.array []) emptyConfig (units "No data to export") rfl rfl⟩

theorem startsWith_iff (s t : Text) : startsWith s t = true ↔ t <+: s := by
  induction t generalizing s with
  | nil => simp [startsWith]
  | cons b t ih =>
    cases s with
    | nil => simp [startsWith]
    | cons a s =>
      simp only [startsWith, Bool.and_eq_true, beq_iff_eq, ih, List.cons_prefix_cons]
      constructor
      · rintro ⟨h1, h2⟩
        exact ⟨h1.symm, h2⟩
      · rintro ⟨h1, h2⟩
        exact ⟨h1.symm, h2⟩

theorem includes_iff (s t : Text) : includes s t = true ↔ t <:+: s := by
  induction s with
  | nil =>
    simp only [includes, startsWith_iff]
    constructor
    · intro h
      exact h.isInfix
    · intro h
      have := List.eq_nil_of_infix_nil h
      subst this
      exact List.prefix_refl _
  | cons a s ih =>
    simp only [includes, Bool.or_eq_true, startsWith_iff, ih, List.infix_cons_iff]

theorem includes_singleton_iff (s : Text) (c : Nat) : includes s [c] = true ↔ c ∈ s := by
  rw [includes_iff]
  constructor
  · rintro ⟨a, b, rfl⟩
    simp
  · intro h
    obtain ⟨a, b, rfl⟩ := List.mem_iff_append.1 h
    exact ⟨a, b, by simp⟩

theorem mem_doubleQuotes (q : Nat) (s : Text) (x : Nat) : x ∈ doubleQuotes q s ↔ x ∈ s := by
  induction s with
  | nil => simp [doubleQuotes]
  | cons a s ih =>
    have hcons : doubleQuotes q (a :: s) = (if a = q then [q, q] else [a]) ++ doubleQuotes q s := by
      simp [doubleQuotes]
    rw [hcons, List.mem_append, ih]
    by_cases ha : a = q
    · subst ha
      simp
    · simp [ha]

/-- For a quote character that is an ordinary pattern character, a field that
needs quoting is wrapped in quotes around its doubled text. -/
theorem formatField_literal_quote (field : Field) (cfg : Config)
    (hescape : cfg.escapeDoubleQuotes = true)
    (hliteral : newRegExp cfg.quote = .ok (.literal cfg.quote))
    (hdollar : cfg.quote ≠ 36)
    (hneeds : (cfg.quoteAll || includes (fieldText field) cfg.delimiter ||
      includes (fieldText field) [cfg.quote] || includes (fieldText field) [10] ||
      includes (fieldText field) [13]) = true) :
    formatField field cfg =
      .ok ([cfg.quote] ++ doubleQuotes cfg.quote (fieldText field) ++ [cfg.quote]) := by
  unfold formatField
  simp only [hneeds, hescape, if_true, hliteral, replaceAll, expandReplacement, hdollar,
    if_false, doubleQuotes]

/-- C4, at a failing input: the collection `[{f: "f(x)"}]` is accepted, and
with the quote character `(` the call `generate` throws a `SyntaxError`,
raised by `new RegExp("(", "g")`, not a validation error. -/
theorem generate_throws_syntaxError :
    (validateData parenthesisData).isValid = true ∧
    generate parenthesisData parenthesisQuote = .error .syntaxError :=
  ⟨rfl, rfl⟩

/-- C5, at a failing input: with the quote character `.` the field `a.b` is
formatted as eight dots, every character having been replaced by two dots,
while doubling the quote characters only and wrapping gives `.a..b.`. -/
theorem formatField_dot_quote :
    dotQuoteConfig.escapeDoubleQuotes = true ∧
    includes (fieldText (.prim (.string (units "a.b")))) [dotQuoteConfig.quote] = true ∧
    formatField (.prim (.string (units "a.b"))) dotQuoteConfig = .ok (units "........") ∧
    [dotQuoteConfig.quote] ++ doubleQuotes dotQuoteConfig.quote (units "a.b") ++
      [dotQuoteConfig.quote] = units ".a..b." :=
  ⟨rfl, rfl, rfl, rfl⟩

theorem fieldText_eq_plainText (field : Field) : fieldText field = plainText field := by
  cases field with
  | null => rfl
  | undefined => rfl
  | prim p =>
    cases p with
    | boolean b => cases b <;> rfl
    | number n => rfl
    | string s => rfl
  | other text => rfl

/-- C8. With `quoteAll` off, a field whose text contains neither the
delimiter, nor the quote character, nor a line feed, nor a carriage return is
returned as its text, unchanged: the empty text for `null` and `undefined`,
the literal text form for a number or a boolean. A number field is a safe
integer, whose literal text form is its decimal numeral; any other number is
an `other` value, with the text `String` gives for it. -/
theorem formatField_plain (field : Field) (cfg : Config)
    (hsafe : SafeField field)
    (hquoteAll : cfg.quoteAll = false)
    (hdelimiter : ¬ cfg.delimiter <:+: plainText field)
    (hquote : cfg.quote ∉ plainText field)
    (hlf : 10 ∉ plainText field)
    (hcr : 13 ∉ plainText field) :
    formatField field cfg = .ok (plainText field) := by
  have _ := hsafe
  rw [← fieldText_eq_plainText] at hdelimiter hquote hlf hcr ⊢
  have h1 : includes (fieldText field) cfg.delimiter = false :=
    Bool.eq_false_iff.2 fun h => hdelimiter ((includes_iff _ _).1 h)
  have h2 : includes (fieldText field) [cfg.quote] = false :=
    Bool.eq_false_iff.2 fun h => hquote ((includes_singleton_iff _ _).1 h)
  have h3 : includes (fieldText field) [10] = false :=
    Bool.eq_false_iff.2 fun h => hlf ((includes_singleton_iff _ _).1 h)
  have h4 : includes (fieldText field) [13] = false :=
    Bool.eq_false_iff.2 fun h => hcr ((includes_singleton_iff _ _).1 h)
  unfold formatField
  simp only [hquoteAll, h1, h2, h3, h4, Bool.or_self, Bool.false_eq_true, if_false]

/-- C8, witness: the number 30 under the default configuration. -/
theorem formatField_plain_witness :
    SafeField (.prim (.number 30)) ∧
    defaultConfig.quoteAll = false ∧
    formatField (.prim (.number 30)) defaultConfig = .ok (units "30") :=
  ⟨(by unfold SafeField IsSafe maxSafeInteger; decide), rfl,
    formatField_plain (.prim (.number 30)) defaultConfig
      (by unfold SafeField IsSafe maxSafeInteger; decide) rfl (by decide) (by decide)
      (by decide) (by decide)⟩

theorem doubleQuotes_cons (q a : Nat) (s : Text) :
    doubleQuotes q (a :: s) = (if a = q then [q, q] else [a]) ++ doubleQuotes q s := by
  simp [doubleQuotes]

theorem undouble_doubleQuotes (q : Nat) (s : Text) : undouble q (doubleQuotes q s) = s := by
  induction s with
  | nil => rfl
  | cons a s ih =>
    rw [doubleQuotes_cons]
    by_cases ha : a = q
    · subst ha
      simp only [if_true, List.cons_append, List.nil_append, undouble, and_self, ih]
    · simp only [ha, if_false, List.cons_append, List.nil_append]
      cases hd : doubleQuotes q s with
      | nil =>
        rw [hd] at ih
        rw [← ih]
        rfl
      | cons b rest =>
        rw [hd] at ih
        simp only [undouble, ha, false_and, if_false, ih]

theorem stripEnds_wrap (q : Nat) (s : Text) : stripEnds ([q] ++ s ++ [q]) = s := by
  simp [stripEnds]

/-- C7. Round trip of a quoted field: for a text field that contains the
delimiter, under a configuration with `escapeDoubleQuotes` on and the default
quote character, `formatField` returns a text from which removing the first
and the last character and undoubling the quote characters gives the field
back. -/
theorem formatField_round_trip (s : Text) (cfg : Config)
    (hescape : cfg.escapeDoubleQuotes = true)
    (hquote : cfg.quote = defaultConfig.quote)
    (hdelimiter : cfg.delimiter <:+: s) :
    ∃ out : Text, formatField (.prim (.string s)) cfg = .ok out ∧
      undouble cfg.quote (stripEnds out) = s := by
  have hq : cfg.quote = 34 := hquote
  have hinc : includes (fieldText (.prim (.string s))) cfg.delimiter = true :=
    (includes_iff _ _).2 hdelimiter
  have hfmt := formatField_literal_quote (.prim (.string s)) cfg hescape
    (by rw [hq]; rfl) (by rw [hq]; decide) (by simp [hinc])
  refine ⟨_, hfmt, ?_⟩
  rw [stripEnds_wrap, undouble_doubleQuotes]
  rfl

/-- C7, witness: the field `a;"b"` under the default configuration. -/
theorem formatField_round_trip_witness :
    defaultConfig.escapeDoubleQuotes = true ∧
    defaultConfig.delimiter <:+: units "a;\"b\"" ∧
    ∃ out : Text, formatField (.prim (.string (units "a;\"b\""))) defaultConfig = .ok out ∧
      undouble defaultConfig.quote (stripEnds out) = units "a;\"b\"" :=
  ⟨rfl, ⟨units "a", units "\"b\"", rfl⟩,
    formatField_round_trip (units "a;\"b\"") defaultConfig rfl rfl
      ⟨units "a", units "\"b\"", rfl⟩⟩

theorem isWhiteSpace_space : isWhiteSpace 32 = true := by decide

theorem isControl_space : isControl 32 = false := by decide

/-- What `collapseAux` emits is a space or a code unit of its input that is
not white space. -/
theorem mem_collapseAux (inRun : Bool) (s : Text) (c : Nat) (h : c ∈ collapseAux inRun s) :
    c = 32 ∨ (c ∈ s ∧ isWhiteSpace c = false) := by
  induction s generalizing inRun with
  | nil => simp [collapseAux] at h
  | cons a s ih =>
    unfold collapseAux at h
    by_cases hws : isWhiteSpace a = true
    · simp only [hws, if_true] at h
      cases inRun with
      | true =>
        simp only [if_true] at h
        rcases ih true h with h1 | ⟨h1, h2⟩
        · exact Or.inl h1
        · exact Or.inr ⟨List.mem_cons_of_mem _ h1, h2⟩
      | false =>
        simp only [Bool.false_eq_true, if_false, List.mem_cons] at h
        rcases h with h | h
        · exact Or.inl h
        · rcases ih true h with h1 | ⟨h1, h2⟩
          · exact Or.inl h1
          · exact Or.inr ⟨List.mem_cons_of_mem _ h1, h2⟩
    · simp only [hws, Bool.false_eq_true, if_false, List.mem_cons] at h
      rcases h with h | h
      · subst h
        exact Or.inr ⟨List.mem_cons_self _ _, by simpa using hws⟩
      · rcases ih false h with h1 | ⟨h1, h2⟩
        · exact Or.inl h1
        · exact Or.inr ⟨List.mem_cons_of_mem _ h1, h2⟩

/-- The output of `collapseAux` has no two spaces in a row, and does not start
with a space when it continues a run. -/
theorem chain_collapseAux (inRun : Bool) (s : Text) :
    List.Chain' (fun a b : Nat => ¬ (a = 32 ∧ b = 32)) (collapseAux inRun s) ∧
      (inRun = true → (collapseAux inRun s).head? ≠ some 32) := by
  induction s generalizing inRun with
  | nil => simp [collapseAux]
  | cons a s ih =>
    unfold collapseAux
    by_cases hws : isWhiteSpace a = true
    · simp only [hws, if_true]
      cases inRun with
      | true =>
        simp only [if_true]
        exact ⟨(ih true).1, fun _ => (ih true).2 rfl⟩
      | false =>
        simp only [Bool.false_eq_true, if_false, false_implies, and_true]
        apply List.Chain'.cons' (ih true).1
        intro y hy
        rintro ⟨-, rfl⟩
        exact (ih true).2 rfl (by simpa using hy)
    · simp only [hws, Bool.false_eq_true, if_false]
      have ha : a ≠ 32 := by
        rintro rfl
        exact hws isWhiteSpace_space
      refine ⟨?_, fun _ => by simpa using ha⟩
      apply List.Chain'.cons' (ih false).1
      intro y _
      rintro ⟨h1, -⟩
      exact ha h1

theorem trim_within (s : Text) : trim s <:+: s :=
  ( List.rdropWhile_prefix (p := isWhiteSpace) (l := s.dropWhile isWhiteSpace)).isInfix.trans
    (List.dropWhile_suffix isWhiteSpace).isInfix

theorem head?_trim (s : Text) (c : Nat) (h : (trim s).head? = some c) :
    isWhiteSpace c = false := by
  have hpre : trim s <+: s.dropWhile isWhiteSpace :=
    List.rdropWhile_prefix (p := isWhiteSpace) (l := s.dropWhile isWhiteSpace)
  obtain ⟨t, ht⟩ := hpre
  have hhead : (s.dropWhile isWhiteSpace).head? = some c := by
    rw [← ht]
    cases htrim : trim s with
    | nil => rw [htrim] at h; simp at h
    | cons x r => rw [htrim] at h; simpa using h
  have hnot := List.head?_dropWhile_not isWhiteSpace s
  rw [hhead] at hnot
  simpa using hnot

theorem getLast?_trim (s : Text) (c : Nat) (h : (trim s).getLast? = some c) :
    isWhiteSpace c = false := by
  have hne : List.rdropWhile isWhiteSpace (s.dropWhile isWhiteSpace) ≠ [] := by
    intro hnil
    have : trim s = [] := hnil
    rw [this] at h
    simp at h
  have hlast := List.rdropWhile_last_not (p := isWhiteSpace) (l := s.dropWhile isWhiteSpace) hne
  have heq : (trim s).getLast? =
      some ((List.rdropWhile isWhiteSpace (s.dropWhile isWhiteSpace)).getLast hne) :=
    List.getLast?_eq_getLast _ hne
  rw [heq] at h
  cases h
  simpa using hlast

theorem sanitizeField_of_value (field : Field) (h1 : field ≠ Field.null)
    (h2 : field ≠ Field.undefined) :
    sanitizeField field =
      trim (collapseAux false ((jsString field).map fun c => if isControl c then 32 else c)) := by
  unfold sanitizeField
  simp [h1, h2]

theorem sanitizeField_within (field : Field) :
    sanitizeField field <:+:
      collapseAux false ((jsString field).map fun c => if isControl c then 32 else c) := by
  by_cases h1 : field = Field.null
  · subst h1
    exact List.nil_infix
  · by_cases h2 : field = Field.undefined
    · subst h2
      exact List.nil_infix
    · rw [sanitizeField_of_value field h1 h2]
      exact trim_within _

/-- C9. `sanitizeField` is a total function; its result is the empty text for
`null` and `undefined`, and for every value it has no character in the ranges
0x00-0x08, 0x0B, 0x0C, 0x0E-0x1F, 0x7F-0x9F, no white space character but the
space, no two spaces in a row, and no space at its start or its end. On
`a\n\nb   c` it gives `a b c`. -/
theorem sanitizeField_spec :
    sanitizeField .null = [] ∧
    sanitizeField .undefined = [] ∧
    (∀ field : Field,
      (∀ c ∈ sanitizeField field,
        ¬ c ≤ 8 ∧ c ≠ 11 ∧ c ≠ 12 ∧ ¬ (14 ≤ c ∧ c ≤ 31) ∧ ¬ (127 ≤ c ∧ c ≤ 159)) ∧
      (∀ c ∈ sanitizeField field, isWhiteSpace c = true → c = 32) ∧
      ¬ [32, 32] <:+: sanitizeField field ∧
      (sanitizeField field).head? ≠ some 32 ∧
      (sanitizeField field).getLast? ≠ some 32) ∧
    sanitizeField (.prim (.string (units "a\n\nb   c"))) = units "a b c" := by
  refine ⟨rfl, rfl, ?_, rfl⟩
  intro field
  have hmem : ∀ c ∈ sanitizeField field, c = 32 ∨ (isControl c = false ∧ isWhiteSpace c = false) := by
    intro c hc
    rcases mem_collapseAux false _ c ((sanitizeField_within field).subset hc) with h | ⟨h, hws⟩
    · exact Or.inl h
    · refine Or.inr ⟨?_, hws⟩
      obtain ⟨x, -, hx⟩ := List.mem_map.1 h
      by_cases hcx : isControl x = true
      · rw [if_pos hcx] at hx
        subst hx
        exact isControl_space
      · rw [if_neg hcx] at hx
        subst hx
        simpa using hcx
  refine ⟨?_, ?_, ?_, ?_, ?_⟩
  · intro c hc
    have hctl : isControl c = false := by
      rcases hmem c hc with h | ⟨h, -⟩
      · subst h
        exact isControl_space
      · exact h
    simp only [isControl, Bool.or_eq_false_iff, Bool.and_eq_false_iff, decide_eq_false_iff_not] at hctl
    omega
  · intro c hc hws
    rcases hmem c hc with h | ⟨-, h⟩
    · exact h
    · rw [h] at hws
      cases hws
  · intro hinf
    have hchain := List.Chain'.infix (chain_collapseAux false _).1
      (hinf.trans (sanitizeField_within field))
    simp at hchain
  · intro hhead
    by_cases h1 : field = Field.null
    · subst h1
      simp [sanitizeField] at hhead
    · by_cases h2 : field = Field.undefined
      · subst h2
        simp [sanitizeField] at hhead
      · rw [sanitizeField_of_value field h1 h2] at hhead
        have := head?_trim _ 32 hhead
        simp [isWhiteSpace_space] at this
  · intro hlast
    by_cases h1 : field = Field.null
    · subst h1
      simp [sanitizeField] at hlast
    · by_cases h2 : field = Field.undefined
      · subst h2
        simp [sanitizeField] at hlast
      · rw [sanitizeField_of_value field h1 h2] at hlast
        have := getLast?_trim _ 32 hlast
        simp [isWhiteSpace_space] at this

/-- C10, counterexample: with `includeBOM` false the output for a collection
whose first key begins with U+FEFF begins with U+FEFF. -/
theorem generate_leading_marker_without_bom :
    (validateData markedKeyData).isValid = true ∧
    (mergeConfig defaultConfig withoutBOM).includeBOM = false ∧
    generate markedKeyData withoutBOM = .ok (65279 :: units "name\r\nA") ∧
    (65279 :: units "name\r\nA").head? = some 65279 :=
  ⟨rfl, rfl, rfl, rfl⟩

theorem generate_array (slots : List (Option Item)) (config : PartialConfig)
    (h : (validateData (.array slots)).isValid = true) :
    generate (.array slots) config =
      match generateRows slots (mergeConfig defaultConfig config) with
      | .error e => .error e
      | .ok rows =>
        if (mergeConfig defaultConfig config).includeBOM then
          .ok ([65279] ++ joinWith (mergeConfig defaultConfig config).lineBreak rows)
        else .ok (joinWith (mergeConfig defaultConfig config).lineBreak rows) := by
  unfold generate
  simp only [h, Bool.not_true, Bool.false_eq_true, if_false]

/-- C10, amended. For a collection that `validateData` accepts: when
`includeBOM` is true, as supplied or by default, `generate` gives what the same
call gives with `includeBOM` false with the one character U+FEFF put in front,
so that its output begins with U+FEFF; when `includeBOM` is false nothing is
put in front: the output is exactly the rows joined by the line terminator. -/
theorem generate_bom_toggle (data : Data) (config : PartialConfig)
    (h : (validateData data).isValid = true) :
    (config.includeBOM.getD true = true →
      generate data config =
        Except.map (fun csv => 65279 :: csv)
          (generate data { config with includeBOM := some false }) ∧
      ∀ out : Text, generate data config = .ok out → out.head? = some 65279) ∧
    (config.includeBOM.getD true = false →
      ∃ slots : List (Option Item),
        data = .array slots ∧
        generate data config =
          Except.map (joinWith (config.lineBreak.getD (units "\r\n")))
            (generateRows slots (mergeConfig defaultConfig config))) := by
  obtain ⟨slots, rfl, -, -⟩ := (validateData_isValid_iff data).1 h
  have hrows : generateRows slots (mergeConfig defaultConfig { config with includeBOM := some false })
      = generateRows slots (mergeConfig defaultConfig config) := rfl
  have hlb : (mergeConfig defaultConfig { config with includeBOM := some false }).lineBreak =
      (mergeConfig defaultConfig config).lineBreak := rfl
  have hoff : (mergeConfig defaultConfig { config with includeBOM := some false }).includeBOM =
      false := rfl
  constructor
  · intro hb
    have hb' : (mergeConfig defaultConfig config).includeBOM = true := hb
    have heq : generate (.array slots) config =
        Except.map (fun csv => 65279 :: csv)
          (generate (.array slots) { config with includeBOM := some false }) := by
      rw [generate_array slots config h, generate_array slots _ h, hrows, hlb, hoff, hb']
      cases generateRows slots (mergeConfig defaultConfig config) with
      | error e => rfl
      | ok rows => rfl
    refine ⟨heq, ?_⟩
    intro out hout
    rw [heq] at hout
    cases hg : generate (.array slots) { config with includeBOM := some false } with
    | error e =>
      rw [hg] at hout
      cases hout
    | ok csv =>
      rw [hg] at hout
      cases hout
      rfl
  · intro hb
    have hb' : (mergeConfig defaultConfig config).includeBOM = false := hb
    refine ⟨slots, rfl, ?_⟩
    rw [generate_array slots config h, hb']
    cases generateRows slots (mergeConfig defaultConfig config) with
    | error e => rfl
    | ok rows => rfl

/-- C10, witness: the two-record collection, with the default configuration,
in which `includeBOM` is true, and with `includeBOM` supplied as false. -/
theorem generate_bom_toggle_witness :
    (validateData twoPeople).isValid = true ∧
    emptyConfig.includeBOM.getD true = true ∧
    withoutBOM.includeBOM.getD true = false ∧
    generate twoPeople emptyConfig = .ok (65279 :: units "name;age\r\nA;30\r\nB;25") ∧
    generate twoPeople withoutBOM = .ok (units "name;age\r\nA;30\r\nB;25") ∧
    (∀ out : Text, generate twoPeople emptyConfig = .ok out → out.head? = some 65279) ∧
    ∃ slots : List (Option Item),
      twoPeople = .array slots ∧
      generate twoPeople withoutBOM =
        Except.map (joinWith (withoutBOM.lineBreak.getD (units "\r\n")))
          (generateRows slots (mergeConfig defaultConfig withoutBOM)) :=
  ⟨rfl, rfl, rfl, rfl, rfl, ((generate_bom_toggle twoPeople emptyConfig rfl).1 rfl).2,
    (generate_bom_toggle twoPeople withoutBOM rfl).2 rfl⟩

theorem startsWith_append (s rest : Text) : startsWith (s ++ rest) s = true :=
  (startsWith_iff _ _).2 (List.prefix_append s rest)

/-- Passing over a piece none of whose code units starts the separator. -/
theorem splitAux_piece (d : Nat) (ds : Text) (r cur rest : Text) (h : d ∉ r) :
    splitAux (d :: ds) 0 cur (r ++ rest) = splitAux (d :: ds) 0 (r.reverse ++ cur) rest := by
  induction r generalizing cur with
  | nil => rfl
  | cons c r ih =>
    have hc : c ≠ d := fun hcd => h (hcd ▸ List.mem_cons_self _ _)
    have hr : d ∉ r := fun hd => h (List.mem_cons_of_mem _ hd)
    have hstart : startsWith (c :: (r ++ rest)) (d :: ds) = false := by
      simp [startsWith, hc]
    rw [List.cons_append, splitAux, hstart]
    simp only [Bool.false_eq_true, if_false]
    rw [ih (c :: cur) hr]
    simp

/-- Passing over the rest of a separator that has been found. -/
theorem splitAux_skip (sep : Text) (t cur rest : Text) :
    splitAux sep t.length cur (t ++ rest) = splitAux sep 0 cur rest := by
  induction t with
  | nil => rfl
  | cons c t ih =>
    rw [List.length_cons, List.cons_append, splitAux, ih]

/-- At a separator the current piece ends. -/
theorem splitAux_separator (d : Nat) (ds : Text) (cur rest : Text) :
    splitAux (d :: ds) 0 cur ((d :: ds) ++ rest) =
      cur.reverse :: splitAux (d :: ds) 0 [] rest := by
  have hstart : startsWith (d :: (ds ++ rest)) (d :: ds) = true :=
    startsWith_append (d :: ds) rest
  rw [List.cons_append, splitAux, hstart]
  simp only [if_true, List.length_cons, Nat.add_sub_cancel]
  rw [splitAux_skip]

/-- Splitting joined pieces by a separator none of whose characters occurs in
a piece gives the pieces back. -/
theorem split_joinWith (sep : Text) (rows : List Text) (hsep : sep ≠ []) (hrows : rows ≠ [])
    (hfree : ∀ row ∈ rows, ∀ c ∈ row, c ∉ sep) :
    split (joinWith sep rows) sep = rows := by
  cases sep with
  | nil => exact absurd rfl hsep
  | cons d ds =>
    show splitAux (d :: ds) 0 [] (joinWith (d :: ds) rows) = rows
    induction rows with
    | nil => exact absurd rfl hrows
    | cons r rows ih =>
      have hr : d ∉ r := fun hd => hfree r (List.mem_cons_self _ _) d hd (List.mem_cons_self _ _)
      cases rows with
      | nil =>
        have := splitAux_piece d ds r [] [] hr
        rw [List.append_nil] at this
        rw [joinWith, this]
        simp [splitAux]
      | cons y rest =>
        rw [joinWith, List.append_assoc, splitAux_piece d ds r [] _ hr, splitAux_separator,
          ih (by simp) fun row hrow => hfree row (List.mem_cons_of_mem _ hrow)]
        simp

theorem length_mapThrow {α β : Type} (f : α → Except JSError β) (l : List α) (out : List β)
    (h : mapThrow f l = .ok out) : out.length = l.length := by
  induction l generalizing out with
  | nil =>
    simp only [mapThrow, Except.ok.injEq] at h
    subst h
    rfl
  | cons a rest ih =>
    unfold mapThrow at h
    cases hfa : f a with
    | error e => rw [hfa] at h; cases h
    | ok b =>
      rw [hfa] at h
      cases hrest : mapThrow f rest with
      | error e => rw [hrest] at h; cases h
      | ok bs =>
        rw [hrest] at h
        simp only [Except.ok.injEq] at h
        subst h
        simp [ih bs hrest]

theorem recordRows_ok (first : Record) (rest : List Record) (cfg : Config) (rows : List Text)
    (h : recordRows first rest cfg = .ok rows) :
    ∃ (header : Text) (dataRows : List Text),
      rows = header :: dataRows ∧ dataRows.length = (first :: rest).length := by
  unfold recordRows at h
  cases hh : formatRow (first.map fun kv => Field.prim (.string kv.1)) cfg with
  | error e => rw [hh] at h; cases h
  | ok header =>
    rw [hh] at h
    cases hm : mapThrow (fun r : Record => formatRow (r.map Prod.snd) cfg) (first :: rest) with
    | error e => rw [hm] at h; cases h
    | ok dataRows =>
      rw [hm] at h
      simp only [Except.ok.injEq] at h
      exact ⟨header, dataRows, h.symm, length_mapThrow _ _ _ hm⟩

/-- C6, counterexample: the one-record collection `[{a: "x\r\ny"}]` gives,
with the default configuration, a text that the line terminator splits into
three lines, not two. -/
theorem split_generate_line_break_value :
    (validateData lineBreakData).isValid = true ∧
    generate lineBreakData emptyConfig = .ok (65279 :: units "a\r\n\"x\r\ny\"") ∧
    (split (65279 :: units "a\r\n\"x\r\ny\"") (mergeConfig defaultConfig emptyConfig).lineBreak).length
      = 3 :=
  ⟨rfl, rfl, rfl⟩

/-- Passing over a piece inside which no separator begins. -/
theorem splitAux_pass (d : Nat) (ds : Text) (r cur rest : Text)
    (h : ∀ j < r.length, startsWith (r.drop j ++ rest) (d :: ds) = false) :
    splitAux (d :: ds) 0 cur (r ++ rest) = splitAux (d :: ds) 0 (r.reverse ++ cur) rest := by
  induction r generalizing cur with
  | nil => rfl
  | cons c r ih =>
    have hstart : startsWith (c :: (r ++ rest)) (d :: ds) = false :=
      h 0 (Nat.succ_pos _)
    have hr : ∀ j < r.length, startsWith (r.drop j ++ rest) (d :: ds) = false :=
      fun j hj => h (j + 1) (Nat.succ_lt_succ hj)
    rw [List.cons_append, splitAux, hstart]
    simp only [Bool.false_eq_true, if_false]
    rw [ih (c :: cur) hr]
    simp

/-- Splitting joined rows by a separator no occurrence of which begins inside
a row gives the rows back. -/
theorem split_joinWith_of_noInnerMatch (sep : Text) (rows : List Text) (hsep : sep ≠ [])
    (hrows : rows ≠ []) (hinner : noInnerMatch sep rows = true) :
    split (joinWith sep rows) sep = rows := by
  cases sep with
  | nil => exact absurd rfl hsep
  | cons d ds =>
    show splitAux (d :: ds) 0 [] (joinWith (d :: ds) rows) = rows
    induction rows with
    | nil => exact absurd rfl hrows
    | cons r rows ih =>
      simp only [noInnerMatch, Bool.and_eq_true, List.all_eq_true, List.mem_range,
        Bool.not_eq_true'] at hinner
      obtain ⟨hr, hrest⟩ := hinner
      cases rows with
      | nil =>
        have hpass := splitAux_pass d ds r [] [] (by
          intro j hj
          rw [List.append_nil]
          exact hr j hj)
        rw [List.append_nil] at hpass
        rw [joinWith, hpass]
        simp [splitAux]
      | cons y rest =>
        have hpass := splitAux_pass d ds r []
          ((d :: ds) ++ joinWith (d :: ds) (y :: rest)) (by
            intro j hj
            have := hr j hj
            rw [joinWith, List.append_assoc, List.drop_append_of_le_length (Nat.le_of_lt hj)]
              at this
            exact this)
        rw [joinWith, List.append_assoc, hpass, splitAux_separator, ih (by simp) hrest]
        simp

/-- C6, amended. For a non-empty collection of records and a configuration
with a non-empty line terminator under which the rows are formatted without
error: if no occurrence of the line terminator in the output begins inside a
row (the header row taken with the U+FEFF in front of it when `includeBOM` is
true), `generate` returns a text that the line terminator splits into those
rows, one line more than there are records. -/
theorem split_generate_length (first : Record) (rest : List Record) (config : PartialConfig)
    (rows : List Text)
    (hrows : recordRows first rest (mergeConfig defaultConfig config) = .ok rows)
    (hsep : (mergeConfig defaultConfig config).lineBreak ≠ [])
    (hinner : noInnerMatch (mergeConfig defaultConfig config).lineBreak
      (outputRows (mergeConfig defaultConfig config).includeBOM rows) = true) :
    ∃ out : Text,
      generate (recordsArray (first :: rest)) config = .ok out ∧
      split out (mergeConfig defaultConfig config).lineBreak =
        outputRows (mergeConfig defaultConfig config).includeBOM rows ∧
      (split out (mergeConfig defaultConfig config).lineBreak).length =
        (first :: rest).length + 1 := by
  obtain ⟨header, dataRows, rfl, hlen⟩ := recordRows_ok first rest _ rows hrows
  have hout : (if (mergeConfig defaultConfig config).includeBOM then [65279] else []) ++
      joinWith (mergeConfig defaultConfig config).lineBreak (header :: dataRows) =
      joinWith (mergeConfig defaultConfig config).lineBreak
        (outputRows (mergeConfig defaultConfig config).includeBOM (header :: dataRows)) := by
    cases dataRows <;> simp [outputRows, joinWith]
  have hsplit := split_joinWith_of_noInnerMatch _ _ hsep (by simp [outputRows]) hinner
  rw [generate_records, hrows]
  refine ⟨_, rfl, ?_, ?_⟩
  · show split ((if (mergeConfig defaultConfig config).includeBOM then [65279] else []) ++
      joinWith (mergeConfig defaultConfig config).lineBreak (header :: dataRows)) _ = _
    rw [hout, hsplit]
  · show (split ((if (mergeConfig defaultConfig config).includeBOM then [65279] else []) ++
      joinWith (mergeConfig defaultConfig config).lineBreak (header :: dataRows)) _).length = _
    rw [hout, hsplit]
    simp [outputRows, hlen]

/-- C6, witness: the collection `[{a: "x\ny"}]` without BOM: the value holds
a line feed, no `\r\n` begins inside a row, and the output `a\r\n"x\ny"` has
two lines. -/
theorem split_generate_length_witness :
    recordRows [(units "a", .prim (.string (units "x\ny")))] []
        (mergeConfig defaultConfig withoutBOM) =
      .ok [units "a", units "\"x\ny\""] ∧
    (mergeConfig defaultConfig withoutBOM).lineBreak ≠ [] ∧
    noInnerMatch (mergeConfig defaultConfig withoutBOM).lineBreak
      (outputRows (mergeConfig defaultConfig withoutBOM).includeBOM
        [units "a", units "\"x\ny\""]) = true ∧
    generate (recordsArray ([(units "a", .prim (.string (units "x\ny")))] :: [])) withoutBOM =
      .ok (units "a\r\n\"x\ny\"") ∧
    ∃ out : Text,
      generate (recordsArray ([(units "a", .prim (.string (units "x\ny")))] :: [])) withoutBOM =
        .ok out ∧
      split out (mergeConfig defaultConfig withoutBOM).lineBreak =
        outputRows (mergeConfig defaultConfig withoutBOM).includeBOM
          [units "a", units "\"x\ny\""] ∧
      (split out (mergeConfig defaultConfig withoutBOM).lineBreak).length =
        ([(units "a", Field.prim (.string (units "x\ny")))] :: []).length + 1 :=
  ⟨rfl, by decide, rfl, rfl,
    split_generate_length [(units "a", .prim (.string (units "x\ny")))] [] withoutBOM
      [units "a", units "\"x\ny\""] rfl (by decide) rfl⟩

theorem recordRows_eq_positionalRows (first : Record) (rest : List Record) (cfg : Config) :
    recordRows first rest cfg =
      positionalRows (first.map Prod.fst) ((first :: rest).map (List.map Prod.snd)) cfg := by
  unfold recordRows positionalRows
  rw [mapThrow_map, List.map_map]
  rfl

theorem formatRow_ok (fields : List Field) (cfg : Config) (row : Text)
    (h : formatRow fields cfg = .ok row) :
    ∃ texts : List Text,
      mapThrow (fun field => formatField field cfg) fields = .ok texts ∧
      texts.length = fields.length ∧ row = joinWith cfg.delimiter texts := by
  unfold formatRow at h
  cases hm : mapThrow (fun field => formatField field cfg) fields with
  | error e => rw [hm] at h; cases h
  | ok texts =>
    rw [hm] at h
    simp only [Except.ok.injEq] at h
    exact ⟨texts, rfl, length_mapThrow _ _ _ hm, h.symm⟩

/-- C11. Data rows are read by position: on a valid collection `generate`
is determined by the keys of the first record and the list of values of each
record in that record's own key order; the row of a record has as many fields
as the record has keys. On `[{a: 1, b: 2}, {b: 3, a: 4}]` without BOM the
output is `a;b\r\n1;2\r\n3;4`. -/
theorem generate_positional :
    (∀ (first : Record) (rest : List Record) (config : PartialConfig),
      (validateData (recordsArray (first :: rest))).isValid = true ∧
      generate (recordsArray (first :: rest)) config =
        Except.map
          (fun rows =>
            (if (mergeConfig defaultConfig config).includeBOM then [65279] else []) ++
              joinWith (mergeConfig defaultConfig config).lineBreak rows)
          (positionalRows (first.map Prod.fst) ((first :: rest).map (List.map Prod.snd))
            (mergeConfig defaultConfig config))) ∧
    (∀ (r : Record) (cfg : Config) (row : Text),
      formatRow (r.map Prod.snd) cfg = .ok row →
        ∃ texts : List Text,
          mapThrow (fun field => formatField field cfg) (r.map Prod.snd) = .ok texts ∧
          texts.length = r.length ∧ row = joinWith cfg.delimiter texts) ∧
    generate permutedData withoutBOM = .ok (units "a;b\r\n1;2\r\n3;4") := by
  refine ⟨?_, ?_, rfl⟩
  · intro first rest config
    refine ⟨by rw [validateData_recordsArray (first :: rest) (by simp)], ?_⟩
    rw [generate_records, recordRows_eq_positionalRows]
    cases positionalRows (first.map Prod.fst) ((first :: rest).map (List.map Prod.snd))
        (mergeConfig defaultConfig config) with
    | error e => rfl
    | ok rows => rfl
  · intro r cfg row h
    obtain ⟨texts, h1, h2, h3⟩ := formatRow_ok _ cfg row h
    exact ⟨texts, h1, by simpa using h2, h3⟩

theorem mergeConfig_toPartial (base : Config) (config : PartialConfig) :
    mergeConfig base (mergeConfig base config).toPartial = mergeConfig base config := rfl

theorem generateWithDefaults_eq (defaults : Config) (data : Data) (config : PartialConfig) :
    generateWithDefaults defaults data config =
      ((generateWithDefaults defaults data config).1, defaults) ∧
    (generateWithDefaults defaultConfig data config).1 = generate data config := by
  unfold generateWithDefaults generate
  by_cases hv : (!(validateData data).isValid) = true
  · simp only [hv, if_true, and_self]
  · cases data with
    | other v => exact absurd rfl hv
    | array items =>
      simp only [hv, if_false, Bool.false_eq_true]
      constructor
      · cases generateRows items (mergeConfig defaults config) with
        | error e => rfl
        | ok rows =>
          simp only
          cases (mergeConfig defaults config).includeBOM <;> rfl
      · cases generateRows items (mergeConfig defaultConfig config) with
        | error e => rfl
        | ok rows =>
          simp only
          cases (mergeConfig defaultConfig config).includeBOM <;> rfl

/-- C12. Configuration merge: `generate` behaves as under the configuration
in which each option has the value the caller supplied, or else its default
(`;`, `"`, `\r\n`, true, false, true); so `generate(records)`, which is
`generate(records, {})`, equals `generate(records, defaultConfig)`; and the
call leaves the static property `defaultConfig` as it was. -/
theorem generate_merged_config :
    (∀ (data : Data) (config : PartialConfig),
      generate data config = generate data (mergeConfig defaultConfig config).toPartial) ∧
    (∀ config : PartialConfig,
      mergeConfig defaultConfig config =
        { delimiter := config.delimiter.getD (units ";"),
          quote := config.quote.getD 34,
          lineBreak := config.lineBreak.getD (units "\r\n"),
          includeBOM := config.includeBOM.getD true,
          quoteAll := config.quoteAll.getD false,
          escapeDoubleQuotes := config.escapeDoubleQuotes.getD true }) ∧
    (∀ data : Data, generate data emptyConfig = generate data defaultConfig.toPartial) ∧
    (∀ (defaults : Config) (data : Data) (config : PartialConfig),
      (generateWithDefaults defaults data config).2 = defaults) ∧
    (∀ (data : Data) (config : PartialConfig),
      (generateWithDefaults defaultConfig data config).1 = generate data config) := by
  refine ⟨?_, ?_, ?_, ?_, ?_⟩
  · intro data config
    unfold generate
    rw [mergeConfig_toPartial]
  · intro config
    rfl
  · intro data
    rfl
  · intro defaults data config
    rw [(generateWithDefaults_eq defaults data config).1]
  · intro data config
    exact (generateWithDefaults_eq defaultConfig data config).2

/-- C13, at failing inputs: with `quoteAll` on and `escapeDoubleQuotes` on,
the field `null` makes `formatField` throw a `SyntaxError` when the quote
character is `(`, and gives four quote characters, not two, when it is `^`. -/
theorem formatField_quoteAll_special_quote :
    quoteAllParenthesis.quoteAll = true ∧
    formatField .null quoteAllParenthesis = .error .syntaxError ∧
    quoteAllCaret.quoteAll = true ∧
    formatField .null quoteAllCaret = .ok [94, 94, 94, 94] :=
  ⟨rfl, rfl, rfl, rfl⟩

/-- C14. With `escapeDoubleQuotes` off, a field that needs quoting (`quoteAll`
is on, or its text contains the delimiter, the quote character, a line feed or
a carriage return) is returned as the quote character, its text unchanged, and
the quote character. A number field is a safe integer, whose text is its
decimal numeral; any other number is an `other` value, with the text `String`
gives for it. -/
theorem formatField_unescaped (field : Field) (cfg : Config)
    (hsafe : SafeField field)
    (hescape : cfg.escapeDoubleQuotes = false)
    (hneeds : cfg.quoteAll = true ∨ cfg.delimiter <:+: plainText field ∨
      cfg.quote ∈ plainText field ∨ 10 ∈ plainText field ∨ 13 ∈ plainText field) :
    formatField field cfg = .ok ([cfg.quote] ++ plainText field ++ [cfg.quote]) := by
  have _ := hsafe
  rw [← fieldText_eq_plainText] at hneeds ⊢
  have hq : (cfg.quoteAll || includes (fieldText field) cfg.delimiter ||
      includes (fieldText field) [cfg.quote] || includes (fieldText field) [10] ||
      includes (fieldText field) [13]) = true := by
    simp only [Bool.or_eq_true]
    rcases hneeds with h | h | h | h | h
    · exact Or.inl (Or.inl (Or.inl (Or.inl h)))
    · exact Or.inl (Or.inl (Or.inl (Or.inr ((includes_iff _ _).2 h))))
    · exact Or.inl (Or.inl (Or.inr ((includes_singleton_iff _ _).2 h)))
    · exact Or.inl (Or.inr ((includes_singleton_iff _ _).2 h))
    · exact Or.inr ((includes_singleton_iff _ _).2 h)
  unfold formatField
  simp only [hq, hescape, if_true, Bool.false_eq_true, if_false]

/-- C14, witness: the field `a"b` with `escapeDoubleQuotes` off. -/
theorem formatField_unescaped_witness :
    SafeField (.prim (.string (units "a\"b"))) ∧
    unescapedConfig.escapeDoubleQuotes = false ∧
    unescapedConfig.quote ∈ plainText (.prim (.string (units "a\"b"))) ∧
    formatField (.prim (.string (units "a\"b"))) unescapedConfig = .ok (units "\"a\"b\"") :=
  ⟨trivial, rfl, by decide,
    formatField_unescaped (.prim (.string (units "a\"b"))) unescapedConfig trivial rfl
      (Or.inr (Or.inr (Or.inl (by decide))))⟩

/-- What the three steps of `sanitizeField` leave: no control character, no
white space but single spaces, none of them at an end. -/
theorem sanitizeField_clean (field : Field) :
    (∀ c ∈ sanitizeField field, isControl c = false) ∧
    (∀ c ∈ sanitizeField field, isWhiteSpace c = true → c = 32) ∧
    List.Chain' (fun a b : Nat => ¬ (a = 32 ∧ b = 32)) (sanitizeField field) ∧
    (∀ c, (sanitizeField field).head? = some c → isWhiteSpace c = false) ∧
    (∀ c, (sanitizeField field).getLast? = some c → isWhiteSpace c = false) := by
  have hmem : ∀ c ∈ sanitizeField field,
      c = 32 ∨ (isControl c = false ∧ isWhiteSpace c = false) := by
    intro c hc
    rcases mem_collapseAux false _ c ((sanitizeField_within field).subset hc) with h | ⟨h, hws⟩
    · exact Or.inl h
    · refine Or.inr ⟨?_, hws⟩
      obtain ⟨x, -, hx⟩ := List.mem_map.1 h
      by_cases hcx : isControl x = true
      · rw [if_pos hcx] at hx
        subst hx
        exact isControl_space
      · rw [if_neg hcx] at hx
        subst hx
        simpa using hcx
  refine ⟨?_, ?_, ?_, ?_, ?_⟩
  · intro c hc
    rcases hmem c hc with h | ⟨h, -⟩
    · subst h
      exact isControl_space
    · exact h
  · intro c hc hws
    rcases hmem c hc with h | ⟨-, h⟩
    · exact h
    · rw [h] at hws
      cases hws
  · exact List.Chain'.infix (chain_collapseAux false _).1 (sanitizeField_within field)
  · intro c hc
    by_cases h1 : field = Field.null
    · subst h1
      simp [sanitizeField] at hc
    · by_cases h2 : field = Field.undefined
      · subst h2
        simp [sanitizeField] at hc
      · rw [sanitizeField_of_value field h1 h2] at hc
        exact head?_trim _ c hc
  · intro c hc
    by_cases h1 : field = Field.null
    · subst h1
      simp [sanitizeField] at hc
    · by_cases h2 : field = Field.undefined
      · subst h2
        simp [sanitizeField] at hc
      · rw [sanitizeField_of_value field h1 h2] at hc
        exact getLast?_trim _ c hc

theorem map_control_eq_self (r : Text) (h : ∀ c ∈ r, isControl c = false) :
    (r.map fun c => if isControl c then 32 else c) = r := by
  induction r with
  | nil => rfl
  | cons a s ih =>
    have ha : isControl a = false := h a (List.mem_cons_self _ _)
    rw [List.map_cons, ih fun c hc => h c (List.mem_cons_of_mem _ hc)]
    simp [ha]

theorem collapseAux_eq_self (inRun : Bool) (r : Text)
    (hchain : List.Chain' (fun a b : Nat => ¬ (a = 32 ∧ b = 32)) r)
    (hws : ∀ c ∈ r, isWhiteSpace c = true → c = 32)
    (hhead : inRun = true → ∀ c, r.head? = some c → isWhiteSpace c = false) :
    collapseAux inRun r = r := by
  induction r generalizing inRun with
  | nil => rfl
  | cons a s ih =>
    have hws' : ∀ c ∈ s, isWhiteSpace c = true → c = 32 :=
      fun c hc => hws c (List.mem_cons_of_mem _ hc)
    unfold collapseAux
    by_cases ha : isWhiteSpace a = true
    · have ha32 : a = 32 := hws a (List.mem_cons_self _ _) ha
      have hrun : inRun = false := by
        cases inRun with
        | false => rfl
        | true =>
          have := hhead rfl a rfl
          rw [ha] at this
          cases this
      subst hrun
      simp only [ha, if_true, Bool.false_eq_true, if_false]
      rw [ih true hchain.tail hws', ha32]
      intro _ c hc
      cases hc32 : isWhiteSpace c with
      | false => rfl
      | true =>
        exfalso
        have hc' : c ∈ s := by
          cases s with
          | nil => simp at hc
          | cons b t =>
            simp only [List.head?_cons, Option.some.injEq] at hc
            subst hc
            exact List.mem_cons_self _ _
        have hceq : c = 32 := hws' c hc' hc32
        have hrel := (List.chain'_cons'.1 hchain).1 c (by simpa using hc)
        exact hrel ⟨ha32, hceq⟩
    · simp only [ha, Bool.false_eq_true, if_false]
      rw [ih false hchain.tail hws' (fun h => by cases h)]

theorem trim_eq_self (r : Text)
    (hhead : ∀ c, r.head? = some c → isWhiteSpace c = false)
    (hlast : ∀ c, r.getLast? = some c → isWhiteSpace c = false) :
    trim r = r := by
  have h1 : r.dropWhile isWhiteSpace = r := by
    cases r with
    | nil => rfl
    | cons a s =>
      have := hhead a rfl
      simp [List.dropWhile, this]
  have h2 : List.rdropWhile isWhiteSpace r = r := by
    rw [List.rdropWhile_eq_self_iff]
    intro hl
    have := hlast (r.getLast hl) (List.getLast?_eq_getLast _ hl)
    simp [this]
  show List.rdropWhile isWhiteSpace (r.dropWhile isWhiteSpace) = r
  rw [h1, h2]

/-- C17. `sanitizeField` is idempotent: applied to its own result it gives
that result back. -/
theorem sanitizeField_idempotent (v : Field) :
    sanitizeField (.prim (.string (sanitizeField v))) = sanitizeField v := by
  obtain ⟨hctl, hws, hchain, hhead, hlast⟩ := sanitizeField_clean v
  rw [sanitizeField_of_value _ (by simp) (by simp)]
  show trim (collapseAux false ((sanitizeField v).map fun c => if isControl c then 32 else c)) =
    sanitizeField v
  rw [map_control_eq_self _ hctl, collapseAux_eq_self false _ hchain hws (fun h => by cases h),
    trim_eq_self _ hhead hlast]

theorem replaceAll_literal (q : Nat) (hq : q ≠ 36) (s : Text) :
    replaceAll (.literal q) (expandReplacement q) s = doubleQuotes q s := by
  simp [replaceAll, expandReplacement, hq, doubleQuotes]

/-- With the default quote character `formatField` returns a text, made of
code units of the field's text and quote characters. -/
theorem formatField_default_quote (field : Field) (cfg : Config)
    (hquote : cfg.quote = defaultConfig.quote) :
    ∃ t : Text, formatField field cfg = .ok t ∧
      ∀ c ∈ t, c ∈ fieldText field ∨ c = 34 := by
  have hq : cfg.quote = 34 := hquote
  have hre : newRegExp cfg.quote = .ok (.literal cfg.quote) := by rw [hq]; rfl
  have hne : cfg.quote ≠ 36 := by rw [hq]; decide
  unfold formatField
  simp only
  split
  · split
    · rw [hre]
      simp only
      refine ⟨_, rfl, ?_⟩
      intro c hc
      rw [replaceAll_literal _ hne] at hc
      simp only [List.mem_append, List.mem_singleton, mem_doubleQuotes] at hc
      rcases hc with (h | h) | h
      · exact Or.inr (h.trans hq)
      · exact Or.inl h
      · exact Or.inr (h.trans hq)
    · refine ⟨_, rfl, ?_⟩
      intro c hc
      simp only [List.mem_append, List.mem_singleton] at hc
      rcases hc with (h | h) | h
      · exact Or.inr (h.trans hq)
      · exact Or.inl h
      · exact Or.inr (h.trans hq)
  · exact ⟨_, rfl, fun c hc => Or.inl hc⟩

theorem mapThrow_ok_of_forall {α β : Type} (f : α → Except JSError β) (P : α → β → Prop)
    (l : List α) (h : ∀ a ∈ l, ∃ b, f a = .ok b ∧ P a b) :
    ∃ bs : List β, mapThrow f l = .ok bs ∧ ∀ b ∈ bs, ∃ a ∈ l, P a b := by
  induction l with
  | nil => exact ⟨[], rfl, by simp⟩
  | cons a rest ih =>
    obtain ⟨b, hb, hP⟩ := h a (List.mem_cons_self _ _)
    obtain ⟨bs, hbs, hall⟩ := ih fun x hx => h x (List.mem_cons_of_mem _ hx)
    refine ⟨b :: bs, ?_, ?_⟩
    · simp only [mapThrow, hb, hbs]
    · intro y hy
      rcases List.mem_cons.1 hy with h1 | h1
      · subst h1
        exact ⟨a, List.mem_cons_self _ _, hP⟩
      · obtain ⟨x, hx, hPx⟩ := hall y h1
        exact ⟨x, List.mem_cons_of_mem _ hx, hPx⟩

theorem mem_joinWith (sep : Text) (xs : List Text) (c : Nat) (h : c ∈ joinWith sep xs) :
    c ∈ sep ∨ ∃ x ∈ xs, c ∈ x := by
  induction xs with
  | nil => simp [joinWith] at h
  | cons x rest ih =>
    cases rest with
    | nil => exact Or.inr ⟨x, List.mem_cons_self _ _, by simpa [joinWith] using h⟩
    | cons y rest =>
      simp only [joinWith, List.mem_append] at h
      rcases h with (h | h) | h
      · exact Or.inr ⟨x, List.mem_cons_self _ _, h⟩
      · exact Or.inl h
      · rcases ih h with h' | ⟨z, hz, hc⟩
        · exact Or.inl h'
        · exact Or.inr ⟨z, List.mem_cons_of_mem _ hz, hc⟩

/-- With the default quote character `formatRow` returns a text, made of code
units of the delimiter, of the fields' texts, and quote characters. -/
theorem formatRow_default_quote (fields : List Field) (cfg : Config)
    (hquote : cfg.quote = defaultConfig.quote) :
    ∃ row : Text, formatRow fields cfg = .ok row ∧
      ∀ c ∈ row, c ∈ cfg.delimiter ∨ c = 34 ∨ ∃ field ∈ fields, c ∈ fieldText field := by
  obtain ⟨texts, htexts, hall⟩ :=
    mapThrow_ok_of_forall (fun field => formatField field cfg)
      (fun field t => ∀ c ∈ t, c ∈ fieldText field ∨ c = 34) fields
      (fun field _ => formatField_default_quote field cfg hquote)
  refine ⟨joinWith cfg.delimiter texts, by simp only [formatRow, htexts], ?_⟩
  intro c hc
  rcases mem_joinWith _ _ c hc with h | ⟨t, ht, hct⟩
  · exact Or.inl h
  · obtain ⟨field, hfield, hP⟩ := hall t ht
    rcases hP c hct with h | h
    · exact Or.inr (Or.inr ⟨field, hfield, h⟩)
    · exact Or.inr (Or.inl h)

/-- C16. For a collection of records in which no key and no value text
holds a carriage return or a line feed, `generate` with the default delimiter,
quote and line terminator and `includeBOM` false returns a text that `\r\n`
splits into the header row followed by the formatted row of each record, in
order: one line more than there are records. -/
theorem split_generate_rows (first : Record) (rest : List Record) (config : PartialConfig)
    (hdelimiter : (mergeConfig defaultConfig config).delimiter = defaultConfig.delimiter)
    (hquote : (mergeConfig defaultConfig config).quote = defaultConfig.quote)
    (hlineBreak : (mergeConfig defaultConfig config).lineBreak = defaultConfig.lineBreak)
    (hbom : (mergeConfig defaultConfig config).includeBOM = false)
    (hclean : ∀ r ∈ first :: rest, ∀ kv ∈ r,
      13 ∉ kv.1 ∧ 10 ∉ kv.1 ∧ 13 ∉ plainText kv.2 ∧ 10 ∉ plainText kv.2) :
    ∃ (header : Text) (dataRows : List Text) (out : Text),
      formatRow (first.map fun kv => Field.prim (.string kv.1))
        (mergeConfig defaultConfig config) = .ok header ∧
      mapThrow (fun r : Record => formatRow (r.map Prod.snd) (mergeConfig defaultConfig config))
        (first :: rest) = .ok dataRows ∧
      generate (recordsArray (first :: rest)) config = .ok out ∧
      split out (units "\r\n") = header :: dataRows ∧
      (split out (units "\r\n")).length = (first :: rest).length + 1 := by
  have hd : ∀ c ∈ (mergeConfig defaultConfig config).delimiter, c = 59 := by
    rw [hdelimiter]
    intro c hc
    simpa [defaultConfig, units, charUnits] using hc
  -- a row of fields whose texts hold neither 13 nor 10 holds neither
  have hrow : ∀ fields : List Field,
      (∀ field ∈ fields, 13 ∉ fieldText field ∧ 10 ∉ fieldText field) →
      ∃ row : Text, formatRow fields (mergeConfig defaultConfig config) = .ok row ∧
        ∀ c ∈ row, c ∉ units "\r\n" := by
    intro fields hfields
    obtain ⟨row, hrow, hmem⟩ := formatRow_default_quote fields _ hquote
    refine ⟨row, hrow, ?_⟩
    intro c hc hcrlf
    have hc' : c = 13 ∨ c = 10 := by
      simpa [units, charUnits] using hcrlf
    rcases hmem c hc with h | h | ⟨field, hfield, h⟩
    · have := hd c h
      omega
    · omega
    · rcases hc' with h' | h'
      · subst h'
        exact (hfields field hfield).1 h
      · subst h'
        exact (hfields field hfield).2 h
  obtain ⟨header, hheader, hheaderFree⟩ := hrow (first.map fun kv => Field.prim (.string kv.1)) (by
    intro field hfield
    obtain ⟨kv, hkv, rfl⟩ := List.mem_map.1 hfield
    have := hclean first (List.mem_cons_self _ _) kv hkv
    exact ⟨this.1, this.2.1⟩)
  obtain ⟨dataRows, hdata, hdataFree⟩ :=
    mapThrow_ok_of_forall
      (fun r : Record => formatRow (r.map Prod.snd) (mergeConfig defaultConfig config))
      (fun _ row => ∀ c ∈ row, c ∉ units "\r\n") (first :: rest) (by
        intro r hr
        apply hrow
        intro field hfield
        obtain ⟨kv, hkv, rfl⟩ := List.mem_map.1 hfield
        have := hclean r hr kv hkv
        rw [fieldText_eq_plainText]
        exact ⟨this.2.2.1, this.2.2.2⟩)
  have hrows : recordRows first rest (mergeConfig defaultConfig config) =
      .ok (header :: dataRows) := by
    simp only [recordRows, hheader, hdata]
  have hsplit : split (joinWith (units "\r\n") (header :: dataRows)) (units "\r\n") =
      header :: dataRows := by
    apply split_joinWith _ _ (by decide) (by simp)
    intro row hrow' c hc
    rcases List.mem_cons.1 hrow' with h | h
    · subst h
      exact hheaderFree c hc
    · obtain ⟨_, _, hfree⟩ := hdataFree row h
      exact hfree c hc
  refine ⟨header, dataRows, joinWith (units "\r\n") (header :: dataRows), hheader, hdata, ?_,
    hsplit, ?_⟩
  · rw [generate_records, hrows]
    simp only [hbom, Bool.false_eq_true, if_false, List.nil_append, hlineBreak]
    rfl
  · rw [hsplit, List.length_cons, length_mapThrow _ _ _ hdata]

/-- C16, witness: the two records `{name: "A", age: 30}`, `{name: "B", age: 25}`
without BOM. -/
theorem split_generate_rows_witness :
    (mergeConfig defaultConfig withoutBOM).includeBOM = false ∧
    ∃ (header : Text) (dataRows : List Text) (out : Text),
      formatRow (personA.map fun kv => Field.prim (.string kv.1))
        (mergeConfig defaultConfig withoutBOM) = .ok header ∧
      mapThrow
        (fun r : Record => formatRow (r.map Prod.snd) (mergeConfig defaultConfig withoutBOM))
        (personA :: [personB]) = .ok dataRows ∧
      generate (recordsArray (personA :: [personB])) withoutBOM = .ok out ∧
      split out (units "\r\n") = header :: dataRows ∧
      (split out (units "\r\n")).length = (personA :: [personB]).length + 1 :=
  ⟨rfl, split_generate_rows personA [personB] withoutBOM rfl rfl rfl rfl (by decide)⟩

theorem formatField_default (s : Text) :
    formatField (.prim (.string s)) defaultConfig = .ok (defaultFieldText s) := by
  have htext : fieldText (.prim (.string s)) = s := rfl
  have hdelim : defaultConfig.delimiter = [59] := rfl
  have hq : defaultConfig.quote = 34 := rfl
  by_cases h : 59 ∈ s ∨ 34 ∈ s ∨ 10 ∈ s ∨ 13 ∈ s
  · have hneeds : (defaultConfig.quoteAll ||
        includes (fieldText (.prim (.string s))) defaultConfig.delimiter ||
        includes (fieldText (.prim (.string s))) [defaultConfig.quote] ||
        includes (fieldText (.prim (.string s))) [10] ||
        includes (fieldText (.prim (.string s))) [13]) = true := by
      rw [htext, hdelim, hq]
      simp only [Bool.or_eq_true, includes_singleton_iff]
      rcases h with h | h | h | h
      · exact Or.inl (Or.inl (Or.inl (Or.inr h)))
      · exact Or.inl (Or.inl (Or.inr h))
      · exact Or.inl (Or.inr h)
      · exact Or.inr h
    rw [formatField_literal_quote (.prim (.string s)) defaultConfig rfl rfl (by decide) hneeds,
      htext]
    simp only [defaultFieldText, h, if_true]
    rfl
  · have h1 : includes s [59] = false :=
      Bool.eq_false_iff.2 fun hi => h (Or.inl ((includes_singleton_iff _ _).1 hi))
    have h2 : includes s [34] = false :=
      Bool.eq_false_iff.2 fun hi => h (Or.inr (Or.inl ((includes_singleton_iff _ _).1 hi)))
    have h3 : includes s [10] = false :=
      Bool.eq_false_iff.2 fun hi =>
        h (Or.inr (Or.inr (Or.inl ((includes_singleton_iff _ _).1 hi))))
    have h4 : includes s [13] = false :=
      Bool.eq_false_iff.2 fun hi =>
        h (Or.inr (Or.inr (Or.inr ((includes_singleton_iff _ _).1 hi))))
    have hqa : defaultConfig.quoteAll = false := rfl
    unfold formatField
    simp only [htext, hdelim, hq, hqa, h1, h2, h3, h4, Bool.or_self, Bool.false_eq_true,
      if_false, defaultFieldText, h]

theorem mapThrow_ok_map {α β : Type} (f : α → Except JSError β) (g : α → β) (l : List α)
    (h : ∀ a, f a = .ok (g a)) : mapThrow f l = .ok (l.map g) := by
  induction l with
  | nil => rfl
  | cons a rest ih => simp only [mapThrow, h, ih, List.map_cons]

theorem formatRow_default (xs : List Text) :
    formatRow (xs.map fun s => Field.prim (.string s)) defaultConfig =
      .ok (joinWith [59] (xs.map defaultFieldText)) := by
  unfold formatRow
  rw [mapThrow_map, mapThrow_ok_map _ defaultFieldText xs formatField_default]
  rfl

theorem rowTail_head (t : Text) (h : IsRowTail t) (rest : Text) : t ≠ 34 :: rest := by
  rcases h with h | ⟨r, h⟩
  · subst h
    simp
  · subst h
    simp

/-- Two texts without a delimiter, each followed by a row tail, that agree
are the same texts with the same tails. -/
theorem plain_cancel (x y t u : Text) (hx : 59 ∉ x) (hy : 59 ∉ y) (ht : IsRowTail t)
    (hu : IsRowTail u) (h : x ++ t = y ++ u) : x = y ∧ t = u := by
  induction x generalizing y with
  | nil =>
    cases y with
    | nil => exact ⟨rfl, h⟩
    | cons b y =>
      exfalso
      rcases ht with ht | ⟨r, ht⟩
      · subst ht
        simp at h
      · subst ht
        simp only [List.nil_append, List.cons_append, List.cons.injEq] at h
        exact hy (h.1 ▸ List.mem_cons_self _ _)
  | cons a x ih =>
    cases y with
    | nil =>
      exfalso
      rcases hu with hu | ⟨r, hu⟩
      · subst hu
        simp at h
      · subst hu
        simp only [List.nil_append, List.cons_append, List.cons.injEq] at h
        exact hx (h.1 ▸ List.mem_cons_self _ _)
    | cons b y =>
      simp only [List.cons_append, List.cons.injEq] at h
      obtain ⟨hxy, htu⟩ := ih y (fun hm => hx (List.mem_cons_of_mem _ hm))
        (fun hm => hy (List.mem_cons_of_mem _ hm)) h.2
      exact ⟨by rw [h.1, hxy], htu⟩

/-- Two doubled texts, each followed by the closing quote and a row tail,
that agree are the doublings of the same text, with the same tails. -/
theorem doubled_cancel (x y t u : Text) (ht : IsRowTail t) (hu : IsRowTail u)
    (h : doubleQuotes 34 x ++ 34 :: t = doubleQuotes 34 y ++ 34 :: u) : x = y ∧ t = u := by
  induction x generalizing y with
  | nil =>
    cases y with
    | nil => simpa [doubleQuotes] using h
    | cons b y =>
      exfalso
      rw [doubleQuotes_cons] at h
      by_cases hb : b = 34
      · subst hb
        simp only [doubleQuotes, List.map_nil, List.flatten_nil, List.nil_append, if_true,
          List.cons_append, List.cons.injEq, true_and] at h
        exact rowTail_head t ht _ h
      · simp only [doubleQuotes, List.map_nil, List.flatten_nil, List.nil_append, hb, if_false,
          List.cons_append, List.cons.injEq] at h
        exact hb h.1.symm
  | cons a x ih =>
    rw [doubleQuotes_cons] at h
    cases y with
    | nil =>
      exfalso
      by_cases ha : a = 34
      · subst ha
        simp only [doubleQuotes, List.map_nil, List.flatten_nil, List.nil_append, if_true,
          List.cons_append, List.cons.injEq, true_and] at h
        exact rowTail_head u hu _ h.symm
      · simp only [doubleQuotes, List.map_nil, List.flatten_nil, List.nil_append, ha, if_false,
          List.cons_append, List.cons.injEq] at h
        exact h.1
    | cons b y =>
      rw [doubleQuotes_cons] at h
      by_cases ha : a = 34
      · by_cases hb : b = 34
        · subst ha
          subst hb
          simp only [if_true, List.cons_append, List.nil_append, List.cons.injEq, true_and] at h
          obtain ⟨hxy, htu⟩ := ih y h
          exact ⟨by rw [hxy], htu⟩
        · exfalso
          subst ha
          simp only [if_true, hb, if_false, List.cons_append, List.nil_append,
            List.cons.injEq] at h
          exact hb h.1.symm
      · by_cases hb : b = 34
        · exfalso
          subst hb
          simp only [if_true, ha, if_false, List.cons_append, List.nil_append,
            List.cons.injEq] at h
          exact h.1
        · simp only [ha, hb, if_false, List.cons_append, List.nil_append, List.cons.injEq] at h
          obtain ⟨hxy, htu⟩ := ih y h.2
          exact ⟨by rw [h.1, hxy], htu⟩

/-- Two formatted fields, each followed by a row tail, that agree are the
formatted texts of the same field, with the same tails. -/
theorem field_cancel (x y t u : Text) (ht : IsRowTail t) (hu : IsRowTail u)
    (h : defaultFieldText x ++ t = defaultFieldText y ++ u) : x = y ∧ t = u := by
  unfold defaultFieldText at h
  by_cases hx : 59 ∈ x ∨ 34 ∈ x ∨ 10 ∈ x ∨ 13 ∈ x
  · by_cases hy : 59 ∈ y ∨ 34 ∈ y ∨ 10 ∈ y ∨ 13 ∈ y
    · simp only [hx, hy, if_true, List.singleton_append, List.cons_append, List.append_assoc,
        List.cons.injEq, true_and] at h
      exact doubled_cancel x y t u ht hu h
    · exfalso
      simp only [hx, hy, if_true, if_false, List.singleton_append, List.cons_append] at h
      cases y with
      | nil => exact rowTail_head u hu _ h.symm
      | cons b y =>
        simp only [List.cons_append, List.cons.injEq] at h
        exact hy (Or.inr (Or.inl (h.1 ▸ List.mem_cons_self _ _)))
  · by_cases hy : 59 ∈ y ∨ 34 ∈ y ∨ 10 ∈ y ∨ 13 ∈ y
    · exfalso
      simp only [hx, hy, if_true, if_false, List.singleton_append, List.cons_append] at h
      cases x with
      | nil => exact rowTail_head t ht _ h
      | cons a x =>
        simp only [List.cons_append, List.cons.injEq] at h
        exact hx (Or.inr (Or.inl (h.1 ▸ List.mem_cons_self _ _)))
    · simp only [hx, hy, if_false] at h
      exact plain_cancel x y t u (fun hm => hx (Or.inl hm)) (fun hm => hy (Or.inl hm)) ht hu h

theorem joinWith_cons (sep a : Text) (l : List Text) :
    joinWith sep (a :: l) = a ++ (if l = [] then [] else sep ++ joinWith sep l) := by
  cases l with
  | nil => simp [joinWith]
  | cons b rest => simp [joinWith]

theorem isRowTail_rest (l : List Text) :
    IsRowTail (if l = [] then [] else [59] ++ joinWith [59] l) := by
  by_cases h : l = []
  · simp [h, IsRowTail]
  · simp only [h, if_false, List.singleton_append]
    exact Or.inr ⟨_, rfl⟩

theorem joinWith_defaultFieldText_injective (xs ys : List Text) (hxs : xs ≠ []) (hys : ys ≠ [])
    (h : joinWith [59] (xs.map defaultFieldText) = joinWith [59] (ys.map defaultFieldText)) :
    xs = ys := by
  induction xs generalizing ys with
  | nil => exact absurd rfl hxs
  | cons x xs ih =>
    cases ys with
    | nil => exact absurd rfl hys
    | cons y ys =>
      rw [List.map_cons, List.map_cons, joinWith_cons, joinWith_cons] at h
      obtain ⟨hxy, htail⟩ := field_cancel x y _ _ (isRowTail_rest _) (isRowTail_rest _) h
      subst hxy
      by_cases hx : xs = []
      · by_cases hy : ys = []
        · rw [hx, hy]
        · exfalso
          simp [hx, hy] at htail
      · by_cases hy : ys = []
        · exfalso
          simp [hx, hy] at htail
        · simp only [List.map_eq_nil_iff, hx, hy, if_false, List.singleton_append,
            List.cons.injEq, true_and] at htail
          rw [ih ys hx hy htail]

/-- C15. Rows are unambiguous under the default configuration: `formatRow`
returns a text for every list of text fields, and two non-empty lists of text
fields with the same row are the same list; the empty list and the list of
one empty text both give the empty row. -/
theorem formatRow_default_injective (xs ys : List Text) (hxs : xs ≠ []) (hys : ys ≠ [])
    (h : formatRow (xs.map fun s => Field.prim (.string s)) defaultConfig =
      formatRow (ys.map fun s => Field.prim (.string s)) defaultConfig) :
    xs = ys ∧
    (∃ row : Text, formatRow (xs.map fun s => Field.prim (.string s)) defaultConfig = .ok row) ∧
    formatRow [] defaultConfig = .ok [] ∧
    formatRow [.prim (.string [])] defaultConfig = .ok [] := by
  refine ⟨?_, ⟨_, formatRow_default xs⟩, rfl, rfl⟩
  rw [formatRow_default, formatRow_default] at h
  exact joinWith_defaultFieldText_injective xs ys hxs hys (Except.ok.inj h)

/-- C15, witness: the row `"a;b";c` read back as the fields `a;b` and `c`. -/
theorem formatRow_default_injective_witness :
    formatRow ([units "a;b", units "c"].map fun s => Field.prim (.string s)) defaultConfig =
      .ok (units "\"a;b\";c") ∧
    ([units "a;b", units "c"] = [units "a;b", units "c"] ∧
      (∃ row : Text,
        formatRow ([units "a;b", units "c"].map fun s => Field.prim (.string s)) defaultConfig =
          .ok row) ∧
      formatRow [] defaultConfig = .ok [] ∧
      formatRow [.prim (.string [])] defaultConfig = .ok []) :=
  ⟨rfl, formatRow_default_injective [units "a;b", units "c"] [units "a;b", units "c"]
    (by decide) (by decide) rfl⟩

theorem copySlots_entries (next : Nat) (slots : List (Option Item)) :
    (copySlots next slots).map (Option.map NewObject.entries) = slots.map (Option.map spread) := by
  induction slots generalizing next with
  | nil => rfl
  | cons slot rest ih =>
    cases slot with
    | none => simp only [copySlots, List.map_cons, Option.map_none', ih]
    | some item => simp only [copySlots, List.map_cons, Option.map_some', ih]

theorem copySlots_address (next : Nat) (slots : List (Option Item)) (object : NewObject)
    (h : some object ∈ copySlots next slots) : next ≤ object.address := by
  induction slots generalizing next with
  | nil => simp [copySlots] at h
  | cons slot rest ih =>
    cases slot with
    | none =>
      simp only [copySlots, List.mem_cons] at h
      rcases h with h | h
      · cases h
      · exact ih next h
    | some item =>
      simp only [copySlots, List.mem_cons, Option.some.injEq] at h
      rcases h with h | h
      · subst h
        exact Nat.le_refl _
      · exact Nat.le_of_succ_le (ih (next + 1) h)

theorem copySlots_nodup (next : Nat) (slots : List (Option Item)) :
    ((copySlots next slots).filterMap (Option.map NewObject.address)).Nodup := by
  induction slots generalizing next with
  | nil => simp [copySlots]
  | cons slot rest ih =>
    cases slot with
    | none =>
      simp only [copySlots, List.filterMap_cons, Option.map_none']
      exact ih next
    | some item =>
      simp only [copySlots, List.filterMap_cons, Option.map_some', List.nodup_cons]
      refine ⟨?_, ih (next + 1)⟩
      intro hmem
      obtain ⟨slot, hslot, haddr⟩ := List.mem_filterMap.1 hmem
      cases slot with
      | none => simp at haddr
      | some object =>
        simp only [Option.map_some', Option.some.injEq] at haddr
        have := copySlots_address (next + 1) rest object hslot
        omega

theorem validateData_eq_of_isValid (data : Data) (h : (validateData data).isValid = true) :
    validateData data = { isValid := true, error := none } := by
  cases data with
  | other v => simp [validateData] at h
  | array slots =>
    unfold validateData at h ⊢
    by_cases hlen : slots.length = 0
    · simp [hlen] at h
    · by_cases hany : someSlot (fun item => item = Item.null || typeOf item != JSType.object)
          slots = true
      · simp [hlen, hany] at h
      · simp [hlen, hany]

theorem validateData_preparedData (next : Nat) (slots : List (Option Item)) :
    validateData (preparedData (copySlots next slots)) =
      if slots = [] then { isValid := false, error := some (units "No data to export") }
      else { isValid := true, error := none } := by
  by_cases hnil : slots = []
  · subst hnil
    rfl
  · rw [if_neg hnil]
    have hvalid : (validateData (preparedData (copySlots next slots))).isValid = true := by
      rw [validateData_isValid_iff]
      refine ⟨_, rfl, ?_, ?_⟩
      · intro h
        have hlen := congrArg List.length h
        have hlen' := congrArg List.length (copySlots_entries next slots)
        simp only [List.length_map, List.length_nil] at hlen hlen'
        exact hnil (List.length_eq_zero.1 (by omega))
      · intro item hitem
        obtain ⟨slot, -, hslot⟩ := List.mem_map.1 hitem
        cases slot with
        | none => simp at hslot
        | some object =>
          simp only [Option.map_some', Option.some.injEq] at hslot
          exact ⟨object.entries, hslot.symm⟩
    exact validateData_eq_of_isValid _ hvalid

/-- C18, counterexample: on the object `{map: 1}`, which is not an array,
`prepareExportData` throws a `TypeError` instead of returning the empty
array. -/
theorem prepareExportData_map_object :
    prepareExportData 0 mapObject = .error .typeError :=
  rfl

/-- C18, amended. For every `data` that is an array, `null`, `undefined`, a
primitive, or an object whose property `map` is missing, `null` or
`undefined`, `prepareExportData` returns an array. When `data` is an array it
has a slot for each slot of `data`: a hole for a hole, and for an element a
fresh record holding the copy of the element (a record copied as it is,
`null` and scalars into records); fresh means an object that did not exist
before the call and differs from the other ones made. Otherwise it is the
empty array. `validateData` accepts the result exactly when `data` is a
non-empty array, and otherwise rejects it with the reason "No data to
export". -/
theorem prepareExportData_spec (next : Nat) (data : Data)
    (hmap : ∀ value, data = .other value →
      mapProperty value = .null ∨ mapProperty value = .undefined) :
    ∃ prepared : List (Option NewObject),
      prepareExportData next data = .ok prepared ∧
      (∀ slots, data = .array slots →
        prepared.map (Option.map NewObject.entries) = slots.map (Option.map spread)) ∧
      (∀ value, data = .other value → prepared = []) ∧
      (∀ r : Record, spread (.record r) = r) ∧ spread .null = [] ∧
      (∀ object, some object ∈ prepared → next ≤ object.address) ∧
      (prepared.filterMap (Option.map NewObject.address)).Nodup ∧
      ((validateData (preparedData prepared)).isValid = true ↔
        ∃ slot slots, data = .array (slot :: slots)) ∧
      ((validateData (preparedData prepared)).isValid = false →
        validateData (preparedData prepared) =
          { isValid := false, error := some (units "No data to export") }) := by
  cases data with
  | array slots =>
    refine ⟨copySlots next slots, rfl, ?_, ?_, fun _ => rfl, rfl,
      copySlots_address next slots, copySlots_nodup next slots, ?_, ?_⟩
    · intro slots' h
      cases h
      exact copySlots_entries next slots
    · intro value h
      cases h
    · rw [validateData_preparedData]
      cases slots with
      | nil =>
        constructor
        · intro h
          cases h
        · rintro ⟨slot, slots, h⟩
          cases h
      | cons slot slots =>
        constructor
        · intro _
          exact ⟨slot, slots, rfl⟩
        · intro _
          rfl
    · rw [validateData_preparedData]
      cases slots with
      | nil => intro _; rfl
      | cons slot slots =>
        intro h
        cases h
  | other value =>
    refine ⟨[], ?_, ?_, fun _ _ => rfl, fun _ => rfl, rfl, ?_, List.nodup_nil, ?_,
      fun _ => rfl⟩
    · rcases hmap value rfl with h | h
      · simp only [prepareExportData, h]
      · simp only [prepareExportData, h]
    · intro slots h
      cases h
    · intro object h
      cases h
    · constructor
      · intro h
        cases h
      · rintro ⟨slot, slots, h⟩
        cases h

/-- C18, witness: the array `[null, 5, {name: "A", age: 30}]`, with the
objects made at the addresses 7, 8 and 9. -/
theorem prepareExportData_spec_witness :
    prepareExportData 7 mixedArray =
      .ok [some { address := 7, entries := [] }, some { address := 8, entries := [] },
        some { address := 9, entries := personA }] ∧
    ∃ prepared : List (Option NewObject),
      prepareExportData 7 mixedArray = .ok prepared ∧
      (∀ slots, mixedArray = .array slots →
        prepared.map (Option.map NewObject.entries) = slots.map (Option.map spread)) ∧
      (∀ value, mixedArray = .other value → prepared = []) ∧
      (∀ r : Record, spread (.record r) = r) ∧ spread .null = [] ∧
      (∀ object, some object ∈ prepared → 7 ≤ object.address) ∧
      (prepared.filterMap (Option.map NewObject.address)).Nodup ∧
      ((validateData (preparedData prepared)).isValid = true ↔
        ∃ slot slots, mixedArray = .array (slot :: slots)) ∧
      ((validateData (preparedData prepared)).isValid = false →
        validateData (preparedData prepared) =
          { isValid := false, error := some (units "No data to export") }) :=
  ⟨rfl, prepareExportData_spec 7 mixedArray (fun _ h => by cases h)⟩

/-- C19, at a failing input: the record with the keys `__proto__` and `a`
is transformed into a record with the key `a` alone. -/
theorem transformData_drops_proto :
    transformData [some (.record protoRecord)] =
      .ok [some [(units "a", .prim (.string (units "y")))]] ∧
    protoRecord.map Prod.fst = [units "__proto__", units "a"] :=
  ⟨rfl, rfl⟩

theorem insertIndex_eq_append (n : Nat) (entry : Text × Field) (obj : Record)
    (h : ∀ kv ∈ obj, ∃ m, arrayIndex kv.1 = some m ∧ m < n) :
    insertIndex n entry obj = obj ++ [entry] := by
  induction obj with
  | nil => rfl
  | cons kv rest ih =>
    obtain ⟨m, hm, hlt⟩ := h kv (List.mem_cons_self _ _)
    simp only [insertIndex, hm, hlt, if_true, List.cons_append,
      ih fun x hx => h x (List.mem_cons_of_mem _ hx)]

theorem lookup_append_cons (pre post : Record) (k : Text) (v : Field)
    (h : k ∉ pre.map Prod.fst) : (pre ++ (k, v) :: post).lookup k = some v := by
  induction pre with
  | nil => simp [List.lookup]
  | cons kv pre ih =>
    have hne : k ≠ kv.1 := fun hk => h (by simp [hk])
    have hpre : k ∉ pre.map Prod.fst := fun hk => h (by simp at hk ⊢; exact Or.inr hk)
    obtain ⟨k', v'⟩ := kv
    have hbeq : (k == k') = false := by simpa using hne
    simp only [List.cons_append, List.lookup, hbeq]
    exact ih hpre

/-- One assignment of `transformData` on a well-formed record: the next key
is added last. -/
theorem setProperty_next (pre post : Record) (k : Text) (v : Field) (value : Text)
    (hwf : WellFormed (pre ++ (k, v) :: post)) (hproto : k ≠ units "__proto__") :
    setProperty (sanitizedRecord pre) k value =
      sanitizedRecord pre ++ [(k, Field.prim (.string value))] := by
  obtain ⟨hnodup, horder⟩ := hwf
  simp only [List.map_append, List.map_cons] at hnodup horder
  have hk : k ∉ pre.map Prod.fst := by
    intro hmem
    have := (List.nodup_append.1 hnodup).2.2
    exact this hmem (List.mem_cons_self _ _)
  have hany : ((sanitizedRecord pre).any fun kv => kv.1 = k) = false := by
    rw [List.any_eq_false]
    intro kv hkv
    obtain ⟨x, hx, rfl⟩ := List.mem_map.1 hkv
    simp only [decide_eq_true_eq]
    intro hxk
    exact hk (List.mem_map.2 ⟨x, hx, hxk⟩)
  unfold setProperty
  simp only [hproto, if_false, hany, Bool.false_eq_true]
  cases hidx : arrayIndex k with
  | none => rfl
  | some n =>
    simp only
    apply insertIndex_eq_append
    intro kv hkv
    obtain ⟨x, hx, rfl⟩ := List.mem_map.1 hkv
    have hrel : KeyOrder x.1 k := by
      have := (List.pairwise_append.1 horder).2.2 x.1 (List.mem_map.2 ⟨x, hx, rfl⟩) k
        (List.mem_cons_self _ _)
      exact this
    unfold KeyOrder at hrel
    rw [hidx] at hrel
    cases hx' : arrayIndex x.1 with
    | none => rw [hx'] at hrel; exact absurd hrel id
    | some m => rw [hx'] at hrel; exact ⟨m, rfl, hrel⟩

theorem transform_foldl (r pre post : Record) (hr : r = pre ++ post) (hwf : WellFormed r)
    (hproto : units "__proto__" ∉ r.map Prod.fst) :
    (post.map Prod.fst).foldl
      (fun transformed key =>
        setProperty transformed key (sanitizeField (getProperty (.record r) key)))
      (sanitizedRecord pre) = sanitizedRecord r := by
  induction post generalizing pre with
  | nil =>
    rw [hr, List.append_nil]
    rfl
  | cons kv post ih =>
    obtain ⟨k, v⟩ := kv
    have hk : k ≠ units "__proto__" := by
      intro hk
      apply hproto
      rw [hr]
      simp [hk]
    have hwf' : WellFormed (pre ++ (k, v) :: post) := hr ▸ hwf
    have hnot : k ∉ pre.map Prod.fst := by
      intro hmem
      have hnodup := hwf'.1
      simp only [List.map_append, List.map_cons] at hnodup
      exact (List.nodup_append.1 hnodup).2.2 hmem (List.mem_cons_self _ _)
    have hget : getProperty (.record r) k = v := by
      simp only [getProperty, ownEntries, hr, lookup_append_cons pre post k v hnot,
        Option.getD_some]
    simp only [List.map_cons, List.foldl_cons, hget]
    rw [setProperty_next pre post k v _ hwf' hk]
    have hpre : sanitizedRecord pre ++ [(k, Field.prim (.string (sanitizeField v)))] =
        sanitizedRecord (pre ++ [(k, v)]) := by
      simp [sanitizedRecord]
    rw [hpre]
    exact ih (pre ++ [(k, v)]) (by rw [hr]; simp)

/-- On a well-formed record without the key `__proto__` the callback of
`transformData` returns the sanitized copy. -/
theorem transformItem_record (r : Record) (hwf : WellFormed r)
    (hproto : units "__proto__" ∉ r.map Prod.fst) :
    transformItem (.record r) = .ok (sanitizedRecord r) := by
  have := transform_foldl r [] r rfl hwf hproto
  simp only [transformItem, objectKeys, ownEntries]
  exact congrArg Except.ok this

/-- On well-formed records without the key `__proto__`, `transformData`
returns the sanitized copies, in order. -/
theorem transformData_records (records : List Record)
    (hwf : ∀ r ∈ records, WellFormed r)
    (hproto : ∀ r ∈ records, units "__proto__" ∉ r.map Prod.fst) :
    transformData (records.map fun r => some (Item.record r)) =
      .ok (records.map fun r => some (sanitizedRecord r)) := by
  unfold transformData
  induction records with
  | nil => rfl
  | cons r rest ih =>
    simp only [List.map_cons, mapSlots, transformItem_record r (hwf r (List.mem_cons_self _ _))
      (hproto r (List.mem_cons_self _ _)),
      ih (fun x hx => hwf x (List.mem_cons_of_mem _ hx))
        (fun x hx => hproto x (List.mem_cons_of_mem _ hx))]

end CSVExporter
